import Mathlib

/-!
Verification of the rqbit torrent session state and peer coordination engine.

The development shallowly embeds the code of
src/crates/librqbit/src/torrent_state.rs and src/crates/rqbit/src/main.rs:
Rust HashMap becomes an association list over Nat keys (a SocketAddr is
abstracted to a Nat), HashSet becomes a duplicate-free list, and a BitVec
bitfield becomes a List Bool (MSB-first within each byte, as in the wire
format).  Components of the repository that the claims depend on but whose
source files are not part of src/ (chunk_tracker.rs, peer_state.rs,
lengths.rs and the peer-task message handling) are modelled from the
specification, each marked in its doc comment.
-/

namespace Rqbit

/-! ### List helpers used by the embedding -/

/-- Lookup in an association list keyed by Nat, mirroring HashMap::get. -/
def alLookup {β : Type} (k : Nat) : List (Nat × β) → Option β
  | [] => none
  | (k', v) :: rest => if k = k' then some v else alLookup k rest

/-- Remove a key from an association list, mirroring HashMap::remove. -/
def alErase {β : Type} (k : Nat) : List (Nat × β) → List (Nat × β)
  | [] => []
  | (k', v) :: rest => if k = k' then alErase k rest else (k', v) :: alErase k rest

/-- Insert or overwrite a key, mirroring HashMap::insert. -/
def alInsert {β : Type} (k : Nat) (v : β) (l : List (Nat × β)) : List (Nat × β) :=
  (k, v) :: alErase k l

/-- Insert into a set represented as a duplicate-free list (HashSet::insert). -/
def setInsert (x : Nat) (l : List Nat) : List Nat :=
  if x ∈ l then l else x :: l

/-- Remove from a set represented as a list (HashSet::remove). -/
def setRemove (x : Nat) : List Nat → List Nat
  | [] => []
  | y :: rest => if y = x then setRemove x rest else y :: setRemove x rest

/-- Number of set bits of a bitfield, that is popcount. -/
def countTrue : List Bool → Nat
  | [] => 0
  | b :: rest => (if b then 1 else 0) + countTrue rest

/-- Bits of one byte, MSB first, per the BitTorrent wire format. -/
def byteToBits (b : Nat) : List Bool :=
  (List.range 8).map (fun i => b.testBit (7 - i))

/-- BF::from_vec: a byte vector viewed as a bitfield, MSB-first per byte. -/
def bfFromVec (bytes : List Nat) : List Bool :=
  (bytes.map byteToBits).flatten

/-- Scan of the tail of the needed bitfield starting at absolute index i:
the first absolute index whose needed bit is set and which the peer
bitfield also has set.  This mirrors the loop
for n in needed.iter_ones { if bf.get(n) == Some(true) { .. } }. -/
def firstMatchFrom (bf : List Bool) : List Bool → Nat → Option Nat
  | [], _ => none
  | b :: rest, i => if b && bf.getD i false then some i else firstMatchFrom bf rest (i + 1)

/-- First index set both in needed and in the peer bitfield, scanning ascending. -/
def firstMatch (needed bf : List Bool) : Option Nat :=
  firstMatchFrom bf needed 0

/-! ### Data model, from torrent_state.rs -/

/-- InflightRequest, torrent_state.rs lines 27-31.  A ValidPieceIndex is
embedded as a plain Nat; validity is tracked through invariants. -/
structure InflightRequest where
  piece : Nat
  chunk : Nat
deriving DecidableEq, Repr

/-- Modelled from the spec: LivePeerState of peer_state.rs is not in src/.
Section 3 of the spec lists its fields: remote peer id, optional advertised
bitfield, the four choke and interest flags, and the set of InflightRequest
this peer is responsible for. -/
structure LivePeerState where
  peer_id : Nat
  i_am_choked : Bool
  they_are_choked : Bool
  i_am_interested : Bool
  they_are_interested : Bool
  bitfield : Option (List Bool)
  inflight_requests : List InflightRequest
deriving DecidableEq, Repr

/-- PeerState of peer_state.rs (not in src/), as used by torrent_state.rs:
a variant over Connecting(addr) and Live(LivePeerState), per spec section 3. -/
inductive PeerState where
  | Connecting (addr : Nat)
  | Live (l : LivePeerState)
deriving DecidableEq, Repr

/-- Modelled from the spec: LivePeerState::new of peer_state.rs is not in
src/.  After the handshake the peer keeps its peer id; the bitfield is
absent until a BITFIELD message arrives; the inflight set starts empty;
per the BitTorrent protocol a fresh connection starts choked and not
interested on both sides. -/
def LivePeerState.new (pid : Nat) : LivePeerState :=
  { peer_id := pid
    i_am_choked := true
    they_are_choked := true
    i_am_interested := false
    they_are_interested := false
    bitfield := none
    inflight_requests := [] }

/-- The live payload of a peer state, when there is one. -/
def liveOf : PeerState → Option LivePeerState
  | PeerState.Live l => some l
  | _ => none

/-- PeerStates, torrent_state.rs lines 42-48.  The tx map of outbound
channels is modelled by its key set (the message channel itself is
external to the core). -/
structure PeerStates where
  states : List (Nat × PeerState)
  seen_peers : List Nat
  inflight_pieces : List Nat
  tx : List Nat
deriving DecidableEq, Repr

/-- Modelled from the spec: Lengths of lengths.rs is not in src/.  Only the
piece-count geometry is needed by the claims: the number of pieces and the
number of chunks of each piece. -/
structure Lengths where
  total_pieces : Nat
  chunks_per_piece : Nat → Nat

/-- Lengths::validate_piece_index: bounds check of a piece index. -/
def Lengths.validate_piece_index (L : Lengths) (n : Nat) : Option Nat :=
  if n < L.total_pieces then some n else none

/-- Outcome of ChunkTracker::mark_chunk_downloaded, per spec section 4.2. -/
inductive PieceOutcome where
  | NotLastChunk
  | PieceComplete
  | AlreadyHave
deriving DecidableEq, Repr

/-- Modelled from the spec: ChunkTracker of chunk_tracker.rs is not in src/.
Spec section 2 and 4.2: a bitfield of pieces we have, a bitfield of pieces
still needed, and a per-piece bitmap of chunks received but not yet
verified.  The have bitfield is named haveBf because have is a keyword. -/
structure ChunkTracker where
  haveBf : List Bool
  needed : List Bool
  chunk_status : List (Nat × List Bool)
deriving DecidableEq, Repr

/-- ChunkTracker::get_needed_pieces: read-only view of needed. -/
def ChunkTracker.get_needed_pieces (ct : ChunkTracker) : List Bool :=
  ct.needed

/-- Modelled from the spec: reserve_needed_piece clears the bit in needed. -/
def ChunkTracker.reserve_needed_piece (ct : ChunkTracker) (p : Nat) : ChunkTracker :=
  { ct with needed := ct.needed.set p false }

/-- Modelled from the spec: mark_chunk_request_cancelled returns the piece
to the pool: sets the bit in needed and clears the partial chunk bitmap
for that piece.  Idempotent. -/
def ChunkTracker.mark_chunk_request_cancelled (ct : ChunkTracker) (p : Nat) (_c : Nat) :
    ChunkTracker :=
  { ct with needed := ct.needed.set p true, chunk_status := alErase p ct.chunk_status }

/-- ChunkTracker::is_piece_have. -/
def ChunkTracker.is_piece_have (ct : ChunkTracker) (p : Nat) : Bool :=
  ct.haveBf.getD p false

/-- ChunkTracker::mark_piece_have: sets the have bit after verification. -/
def ChunkTracker.mark_piece_have (ct : ChunkTracker) (p : Nat) : ChunkTracker :=
  { ct with haveBf := ct.haveBf.set p true }

/-- Modelled from the spec: mark_chunk_downloaded records receipt of a chunk
and reports whether the piece is now complete, was already have, or still
has chunks missing. -/
def ChunkTracker.mark_chunk_downloaded (L : Lengths) (ct : ChunkTracker) (p c : Nat) :
    PieceOutcome × ChunkTracker :=
  if ct.is_piece_have p then (PieceOutcome.AlreadyHave, ct)
  else
    let bm := (alLookup p ct.chunk_status).getD (List.replicate (L.chunks_per_piece p) false)
    let bm' := bm.set c true
    let ct' := { ct with chunk_status := alInsert p bm' ct.chunk_status }
    if bm'.all (fun b => b) then (PieceOutcome.PieceComplete, ct')
    else (PieceOutcome.NotLastChunk, ct')

/-! ### PeerStates operations, torrent_state.rs lines 56-137 -/

/-- PeerStates::add, lines 96-108: no-op returning None when the address is
already a key of states; otherwise inserts Connecting(addr) and records the
tx channel.  The handle equals the address. -/
def PeerStates.add (ps : PeerStates) (addr : Nat) : Option (Nat × PeerStates) :=
  if (alLookup addr ps.states).isSome then none
  else
    some (addr,
      { ps with
        states := alInsert addr (PeerState.Connecting addr) ps.states
        tx := setInsert addr ps.tx })

/-- PeerStates::add_if_not_seen, lines 68-79: rejects an address already in
seen_peers; otherwise delegates to add and records the address as seen. -/
def PeerStates.add_if_not_seen (ps : PeerStates) (addr : Nat) : Option (Nat × PeerStates) :=
  if addr ∈ ps.seen_peers then none
  else
    match ps.add addr with
    | none => none
    | some (h, ps') => some (h, { ps' with seen_peers := setInsert addr ps'.seen_peers })

/-- PeerStates::get_live, lines 80-85. -/
def PeerStates.get_live (ps : PeerStates) (h : Nat) : Option LivePeerState :=
  match alLookup h ps.states with
  | some (PeerState.Live l) => some l
  | _ => none

/-- PeerStates::drop_peer, lines 109-113: removes the handle from states and
from tx, returning the previous state. -/
def PeerStates.drop_peer (ps : PeerStates) (h : Nat) : Option PeerState × PeerStates :=
  (alLookup h ps.states,
    { ps with states := alErase h ps.states, tx := setRemove h ps.tx })

/-- PeerStates::mark_i_am_choked, lines 114-119: flips the flag of a live
peer, returning the previous value; no-op on non-live peers. -/
def PeerStates.mark_i_am_choked (ps : PeerStates) (h : Nat) (is_choked : Bool) :
    Option Bool × PeerStates :=
  match ps.get_live h with
  | none => (none, ps)
  | some l =>
    (some l.i_am_choked,
      { ps with states := alInsert h (PeerState.Live { l with i_am_choked := is_choked }) ps.states })

/-- PeerStates::update_bitfield_from_vec, lines 120-130: replaces the
bitfield of a live peer by BF::from_vec(bytes) without any length
validation, returning the previous bitfield; no-op on non-live peers. -/
def PeerStates.update_bitfield_from_vec (ps : PeerStates) (h : Nat) (bytes : List Nat) :
    Option (Option (List Bool)) × PeerStates :=
  match ps.get_live h with
  | none => (none, ps)
  | some l =>
    (some l.bitfield,
      { ps with
        states := alInsert h (PeerState.Live { l with bitfield := some (bfFromVec bytes) }) ps.states })

/-- PeerStates::remove_inflight_piece, lines 134-136. -/
def PeerStates.remove_inflight_piece (ps : PeerStates) (p : Nat) : Bool × PeerStates :=
  (decide (p ∈ ps.inflight_pieces), { ps with inflight_pieces := setRemove p ps.inflight_pieces })

/-! ### TorrentState operations, torrent_state.rs lines 139-333

The TorrentStateLocked record is the state guarded by the engine lock; each
Rust method that mutates through the lock becomes a function from the
locked state to the new locked state. -/

/-- TorrentStateLocked, lines 139-142. -/
structure TorrentStateLocked where
  peers : PeerStates
  chunks : ChunkTracker
deriving DecidableEq, Repr

/-- AtomicStats, lines 144-149, as plain counters. -/
structure AtomicStats where
  haveBytes : Nat
  downloaded_and_checked : Nat
  uploaded : Nat
  fetched_bytes : Nat
deriving DecidableEq, Repr

namespace TorrentState

/-- TorrentState::get_next_needed_piece, lines 209-219: the first piece the
peer advertises that is still needed, without reserving. -/
def get_next_needed_piece (L : Lengths) (ts : TorrentStateLocked) (h : Nat) : Option Nat :=
  match ts.peers.get_live h with
  | none => none
  | some l =>
    match l.bitfield with
    | none => none
    | some bf =>
      match firstMatch ts.chunks.get_needed_pieces bf with
      | none => none
      | some n => L.validate_piece_index n

/-- TorrentState::am_i_choked, lines 221-227. -/
def am_i_choked (ts : TorrentStateLocked) (h : Nat) : Option Bool :=
  (ts.peers.get_live h).map (fun l => l.i_am_choked)

/-- TorrentState::reserve_next_needed_piece, lines 229-250.  Returns the
reserved piece together with the new locked state; None means an early
return, which in the source leaves the locked state unmutated. -/
def reserve_next_needed_piece (L : Lengths) (ts : TorrentStateLocked) (h : Nat) :
    Option (Nat × TorrentStateLocked) :=
  match am_i_choked ts h with
  | none => none
  | some true => none
  | some false =>
    match ts.peers.get_live h with
    | none => none
    | some l =>
      match l.bitfield with
      | none => none
      | some bf =>
        match firstMatch ts.chunks.get_needed_pieces bf with
        | none => none
        | some n0 =>
          match L.validate_piece_index n0 with
          | none => none
          | some n =>
            some (n,
              { ts with
                peers := { ts.peers with inflight_pieces := setInsert n ts.peers.inflight_pieces }
                chunks := ts.chunks.reserve_needed_piece n })

/-- TorrentState::try_steal_piece, lines 256-267.  The rand::choose draw is
modelled by the extra argument k selecting one of the candidates; choose
returns None exactly when the candidate iterator is empty.  The source
takes the engine lock read-only, so the call mutates nothing; accordingly
the embedding returns only the chosen piece. -/
def try_steal_piece (ts : TorrentStateLocked) (h : Nat) (k : Nat) : Option Nat :=
  match ts.peers.get_live h with
  | none => none
  | some pl =>
    let cands := ts.peers.inflight_pieces.filter
      (fun p => !(pl.inflight_requests.any (fun req => req.piece == p)))
    if hne : cands = [] then none
    else some (cands.get ⟨k % cands.length, Nat.mod_lt _ (List.length_pos.mpr hne)⟩)

/-- TorrentState::set_peer_live, lines 269-279: Connecting becomes Live; in
any other case (already Live, or absent) only a warning is logged and the
state is returned untouched. -/
def set_peer_live (ts : TorrentStateLocked) (h : Nat) (pid : Nat) : TorrentStateLocked :=
  match alLookup h ts.peers.states with
  | some (PeerState.Connecting _) =>
    { ts with
      peers := { ts.peers with states := alInsert h (PeerState.Live (LivePeerState.new pid)) ts.peers.states } }
  | _ => ts

/-- Folding mark_chunk_request_cancelled over the requests a dropped peer
held, as the loop of TorrentState::drop_peer does. -/
def cancelAll (ct : ChunkTracker) (reqs : List InflightRequest) : ChunkTracker :=
  reqs.foldl (fun acc req => acc.mark_chunk_request_cancelled req.piece req.chunk) ct

/-- TorrentState::drop_peer, lines 281-296: removes the peer from states and
tx; when the removed peer was Live, every InflightRequest it held is
cancelled back into the ChunkTracker.  Returns false when the handle was
not a key of states. -/
def drop_peer (ts : TorrentStateLocked) (h : Nat) : Bool × TorrentStateLocked :=
  match ts.peers.drop_peer h with
  | (none, ps') => (false, { ts with peers := ps' })
  | (some (PeerState.Connecting _), ps') => (true, { ts with peers := ps' })
  | (some (PeerState.Live l), ps') =>
    (true, { peers := ps', chunks := cancelAll ts.chunks l.inflight_requests })

/-- TorrentState::get_left_to_download, lines 305-307: the u64 subtraction
needed - downloaded_and_checked, which has no underflow guard; the Option
result is none exactly when the subtraction would underflow (a panic in a
debug build, a wrap in release). -/
def get_left_to_download (needed : Nat) (s : AtomicStats) : Option Nat :=
  if s.downloaded_and_checked ≤ needed then some (needed - s.downloaded_and_checked) else none

end TorrentState

/-! ### Peer-task operations, modelled from the spec

The peer tasks that call into TorrentState live in torrent_manager.rs and
peer connection code that is not part of src/; the operations below follow
the words of spec sections 4.5 and 6. -/

/-- Clearing every live peer's InflightRequests for one piece, as the
piece-completion protocol of spec section 4.5 does after verification. -/
def clearRequestsForPiece (p : Nat) (states : List (Nat × PeerState)) : List (Nat × PeerState) :=
  states.map (fun e =>
    match e with
    | (h, PeerState.Live l) =>
      (h, PeerState.Live
        { l with inflight_requests := l.inflight_requests.filter (fun r => r.piece != p) })
    | other => other)

/-- Modelled from the spec: a peer task records an InflightRequest for a
chunk it requests; requests are issued only for pieces the peer obtained
from reserve_next_needed_piece or try_steal_piece, both members of
inflight_pieces, and only for chunk indices within the piece (spec
sections 3, 4.5 and 9).  Outside those conditions the operation is a
no-op of the engine state. -/
def issue_request (L : Lengths) (ts : TorrentStateLocked) (h p c : Nat) : TorrentStateLocked :=
  match ts.peers.get_live h with
  | none => ts
  | some l =>
    if p ∈ ts.peers.inflight_pieces ∧ c < L.chunks_per_piece p then
      let l' := { l with
        inflight_requests :=
          if (⟨p, c⟩ : InflightRequest) ∈ l.inflight_requests then l.inflight_requests
          else ⟨p, c⟩ :: l.inflight_requests }
      { ts with peers := { ts.peers with states := alInsert h (PeerState.Live l') ts.peers.states } }
    else ts

/-- Modelled from the spec: the piece-completion protocol of section 4.5,
run by a peer task when a Piece message delivers a chunk the peer had in
flight.  The SHA-1 verdict of check_piece_blocking is the external input
valid.  The delivered request leaves the peer's inflight set; then
mark_chunk_downloaded decides: NotLastChunk and AlreadyHave change nothing
else; on PieceComplete a valid piece is marked have and removed from
inflight_pieces, an invalid piece is re-armed (needed bit set, partial
chunk bitmap wiped, removed from inflight_pieces); in both completion
outcomes every live peer's requests for that piece are cleared. -/
def deliver_chunk (L : Lengths) (ts : TorrentStateLocked) (h p c : Nat) (valid : Bool) :
    TorrentStateLocked :=
  match ts.peers.get_live h with
  | none => ts
  | some l =>
    if (⟨p, c⟩ : InflightRequest) ∈ l.inflight_requests then
      let l' := { l with inflight_requests := l.inflight_requests.filter (fun r => r != ⟨p, c⟩) }
      let ps := { ts.peers with states := alInsert h (PeerState.Live l') ts.peers.states }
      match ts.chunks.mark_chunk_downloaded L p c with
      | (PieceOutcome.AlreadyHave, _) => { ts with peers := ps }
      | (PieceOutcome.NotLastChunk, ct') => { peers := ps, chunks := ct' }
      | (PieceOutcome.PieceComplete, ct') =>
        let ps' := { ps with
          inflight_pieces := setRemove p ps.inflight_pieces
          states := clearRequestsForPiece p ps.states }
        if valid then
          { peers := ps', chunks := ct'.mark_piece_have p }
        else
          { peers := ps',
            chunks := { ct' with
              needed := ct'.needed.set p true
              chunk_status := alErase p ct'.chunk_status } }
    else ts

/-- Ceiling of total_pieces / 8: the mandated byte length of a Bitfield
message, per spec section 6. -/
def bitfieldByteLen (total_pieces : Nat) : Nat :=
  (total_pieces + 7) / 8

/-- Modelled from the spec: the peer task's handler of a Bitfield wire
message (spec sections 6 and 4.5): the byte length must be
bitfieldByteLen total_pieces and every trailing bit beyond total_pieces
must be zero; a violation rejects the peer through TorrentState::drop_peer,
otherwise the bitfield replaces the peer's stored one through
PeerStates::update_bitfield_from_vec. -/
def handle_bitfield (L : Lengths) (ts : TorrentStateLocked) (h : Nat) (bytes : List Nat) :
    TorrentStateLocked :=
  if bytes.length = bitfieldByteLen L.total_pieces ∧
     ((bfFromVec bytes).drop L.total_pieces).all (fun b => !b) then
    { ts with peers := (ts.peers.update_bitfield_from_vec h bytes).2 }
  else
    (TorrentState.drop_peer ts h).2

/-! ### The engine transition system

One step is one operation a peer task performs against the engine lock;
chained steps give every interleaving of the sequential histories the
claims quantify over (the Rust engine serializes these through the
reader-writer lock). -/

/-- Operations of the engine.  The Bool of deliver is the SHA-1 verdict of
the delivered piece when it completes. -/
inductive Op where
  | addPeer (addr : Nat)
  | setLive (h pid : Nat)
  | setChoked (h : Nat) (b : Bool)
  | giveBitfield (h : Nat) (bytes : List Nat)
  | reserve (h : Nat)
  | request (h p c : Nat)
  | deliver (h p c : Nat) (valid : Bool)
  | dropPeer (h : Nat)
deriving DecidableEq, Repr

/-- One engine step.  Every arm delegates to the embedded source operation;
an operation that returns None leaves the state as the source does on its
early-return paths. -/
def step (L : Lengths) (ts : TorrentStateLocked) : Op → TorrentStateLocked
  | Op.addPeer a =>
    match ts.peers.add_if_not_seen a with
    | none => ts
    | some (_, ps) => { ts with peers := ps }
  | Op.setLive h pid => TorrentState.set_peer_live ts h pid
  | Op.setChoked h b => { ts with peers := (ts.peers.mark_i_am_choked h b).2 }
  | Op.giveBitfield h bytes => { ts with peers := (ts.peers.update_bitfield_from_vec h bytes).2 }
  | Op.reserve h =>
    match TorrentState.reserve_next_needed_piece L ts h with
    | none => ts
    | some (_, ts') => ts'
  | Op.request h p c => issue_request L ts h p c
  | Op.deliver h p c v => deliver_chunk L ts h p c v
  | Op.dropPeer h => (TorrentState.drop_peer ts h).2

/-- Execution of a sequence of operations. -/
def exec (L : Lengths) (ts : TorrentStateLocked) (ops : List Op) : TorrentStateLocked :=
  ops.foldl (step L) ts

/-- The initial engine state: no peers, and the ChunkTracker bitfields as
recomputed on startup (spec section 3: needed is initially the complement
of have). -/
def initState (have0 needed0 : List Bool) : TorrentStateLocked :=
  { peers := { states := [], seen_peers := [], inflight_pieces := [], tx := [] }
    chunks := { haveBf := have0, needed := needed0, chunk_status := [] } }

/-- Decides that one operation, applied now, drops no peer that still
holds an InflightRequest. -/
def opClean (ts : TorrentStateLocked) : Op → Bool
  | Op.dropPeer h =>
    match ts.peers.get_live h with
    | some l => l.inflight_requests.isEmpty
    | none => true
  | _ => true

/-- Decides that along the trace every dropped peer holds no
InflightRequest at the moment of the drop. -/
def dropsAreClean (L : Lengths) : TorrentStateLocked → List Op → Bool
  | _, [] => true
  | ts, op :: ops => opClean ts op && dropsAreClean L (step L ts op) ops

/-! ### The CLI file-selection path, from src/crates/rqbit/src/main.rs

The regex engine is the external regex crate: a compile function mapping
the pattern to None (syntactically invalid) or to its match predicate is a
parameter.  A torrent file entry's path is None when it is not valid
UTF-8 (the to_pathbuf and to_str failures of the source). -/

/-- One (filename, length) entry of the metainfo file list. -/
structure TorrentFileEntry where
  path : Option String
  flen : Nat
deriving Repr

/-- The enumerated filename loop of compute_only_files, main.rs lines
100-111: iterates files with their indices, fails on a non-UTF-8 path,
and collects the indices whose path the regex matches. -/
def collectMatching (m : String → Bool) : List TorrentFileEntry → Nat → Except String (List Nat)
  | [], _ => Except.ok []
  | f :: fs, idx =>
    match f.path with
    | none => Except.error "filename is not valid utf8"
    | some s =>
      match collectMatching m fs (idx + 1) with
      | Except.error e => Except.error e
      | Except.ok rest => Except.ok (if m s then idx :: rest else rest)

/-- compute_only_files, main.rs lines 94-116: compile the regex (error when
invalid), collect the indices of files whose filename matches, and fail
when no filename matched. -/
def compute_only_files (compile : String → Option (String → Bool))
    (files : List TorrentFileEntry) (filename_re : String) : Except String (List Nat) :=
  match compile filename_re with
  | none => Except.error "filename regex is incorrect"
  | some m =>
    match collectMatching m files 0 with
    | Except.error e => Except.error e
    | Except.ok only_files =>
      if only_files.isEmpty then Except.error "none of the filenames match the given regex"
      else Except.ok only_files

/-- Externally visible milestones of main_info, main.rs lines 249-298. -/
inductive MainEvent where
  | startManager
deriving DecidableEq, Repr

/-- The control flow of main_info, main.rs lines 249-298, restricted to
what the claims observe: the list-only early return, then compute_only_files
for the optional filename regex whose error propagates (the question-mark
operator on line 264) before builder.start_manager() on line 279 ever
runs, so a failure produces no startManager event. -/
def main_info_model (compile : String → Option (String → Bool))
    (files : List TorrentFileEntry) (list_only : Bool) (only_re : Option String) :
    Except String (List MainEvent) :=
  if list_only then Except.ok []
  else
    match only_re with
    | some re =>
      match compute_only_files compile files re with
      | Except.error e => Except.error e
      | Except.ok _ => Except.ok [MainEvent.startManager]
    | none => Except.ok [MainEvent.startManager]

/-- The indices (counted from i) of files whose path matches, the
specification value that compute_only_files must produce on success. -/
def specMatchingIndices (m : String → Bool) : List TorrentFileEntry → Nat → List Nat
  | [], _ => []
  | f :: fs, i =>
    let rest := specMatchingIndices m fs (i + 1)
    if (match f.path with | some s => m s | none => false) then i :: rest else rest

/-! ### Invariants of the engine state -/

/-- The piece bookkeeping invariant of the engine (spec sections 3 and 8):
the two bitfields span the torrent, a piece sits in inflight_pieces
exactly when it is reserved (cleared in needed) and not yet verified
(cleared in have), have and needed never overlap, every InflightRequest of
a live peer is for a piece of inflight_pieces, and the three quantities
partition the piece count. -/
structure EngineInv (L : Lengths) (ts : TorrentStateLocked) : Prop where
  have_len : ts.chunks.haveBf.length = L.total_pieces
  needed_len : ts.chunks.needed.length = L.total_pieces
  inflight_nodup : ts.peers.inflight_pieces.Nodup
  inflight_iff : ∀ p, p ∈ ts.peers.inflight_pieces ↔
    p < L.total_pieces ∧ ts.chunks.needed.getD p false = false ∧
      ts.chunks.haveBf.getD p false = false
  have_needed_disjoint : ∀ i,
    ¬(ts.chunks.haveBf.getD i false = true ∧ ts.chunks.needed.getD i false = true)
  req_inflight : ∀ h l, ts.peers.get_live h = some l →
    ∀ r ∈ l.inflight_requests, r.piece ∈ ts.peers.inflight_pieces
  sum_eq : countTrue ts.chunks.haveBf + countTrue ts.chunks.needed +
    ts.peers.inflight_pieces.length = L.total_pieces

/-- Every key of states is a seen peer (spec invariant 6). -/
def SeenInv (ts : TorrentStateLocked) : Prop :=
  ∀ h, (alLookup h ts.peers.states).isSome = true → h ∈ ts.peers.seen_peers

/-! ### Small concrete states used to evaluate the theorems -/

/-- A one-piece, one-chunk torrent geometry. -/
def sampleLengths : Lengths := ⟨1, fun _ => 1⟩

/-- Peer 0 live and unchoked with a full one-piece bitfield, no requests. -/
def sampleLive : LivePeerState :=
  { peer_id := 7
    i_am_choked := false
    they_are_choked := true
    i_am_interested := false
    they_are_interested := false
    bitfield := some [true]
    inflight_requests := [] }

/-- A one-piece engine state with nothing downloaded and sampleLive admitted. -/
def sampleState : TorrentStateLocked :=
  { peers :=
      { states := [(0, PeerState.Live sampleLive)]
        seen_peers := [0]
        inflight_pieces := []
        tx := [0] }
    chunks := { haveBf := [false], needed := [true], chunk_status := [] } }

/-- A one-piece engine state in which peer 0 is still Connecting. -/
def sampleConnState : TorrentStateLocked :=
  { peers :=
      { states := [(0, PeerState.Connecting 0)]
        seen_peers := [0]
        inflight_pieces := []
        tx := [0] }
    chunks := { haveBf := [false], needed := [true], chunk_status := [] } }

/-- A two-piece torrent geometry. -/
def sampleLengths2 : Lengths := ⟨2, fun _ => 1⟩

/-- Peer 0 live with piece 0 reserved and one chunk request in flight. -/
def sampleLiveReq : LivePeerState :=
  { peer_id := 9
    i_am_choked := false
    they_are_choked := true
    i_am_interested := true
    they_are_interested := false
    bitfield := some [true, false]
    inflight_requests := [⟨0, 0⟩] }

/-- A two-piece engine state in which piece 0 is reserved by sampleLiveReq. -/
def sampleState2 : TorrentStateLocked :=
  { peers :=
      { states := [(0, PeerState.Live sampleLiveReq)]
        seen_peers := [0]
        inflight_pieces := [0]
        tx := [0] }
    chunks := { haveBf := [false, false], needed := [false, true], chunk_status := [] } }

/-! ### Lemmas about the list helpers -/

theorem alLookup_alErase_self {β : Type} (k : Nat) (l : List (Nat × β)) :
    alLookup k (alErase k l) = none := by
  induction l with
  | nil => rfl
  | cons e rest ih =>
    obtain ⟨k0, v⟩ := e
    by_cases hk : k = k0
    · simpa [alErase, hk] using ih
    · simpa [alErase, alLookup, hk] using ih

theorem alLookup_alErase_ne {β : Type} (k k' : Nat) (l : List (Nat × β)) (h : k' ≠ k) :
    alLookup k' (alErase k l) = alLookup k' l := by
  induction l with
  | nil => rfl
  | cons e rest ih =>
    obtain ⟨k0, v⟩ := e
    by_cases hk : k = k0
    · subst hk
      simpa [alErase, alLookup, h] using ih
    · by_cases hk' : k' = k0
      · simp [alErase, alLookup, hk, hk']
      · simpa [alErase, alLookup, hk, hk'] using ih

theorem alErase_of_lookup_none {β : Type} (k : Nat) (l : List (Nat × β))
    (h : alLookup k l = none) : alErase k l = l := by
  induction l with
  | nil => rfl
  | cons e rest ih =>
    obtain ⟨k0, v⟩ := e
    by_cases hk : k = k0
    · rw [alLookup, if_pos hk] at h
      cases h
    · rw [alLookup, if_neg hk] at h
      rw [alErase, if_neg hk, ih h]

theorem alLookup_alInsert_self {β : Type} (k : Nat) (v : β) (l : List (Nat × β)) :
    alLookup k (alInsert k v l) = some v := by
  simp [alInsert, alLookup]

theorem alLookup_alInsert_ne {β : Type} (k k' : Nat) (v : β) (l : List (Nat × β))
    (h : k' ≠ k) : alLookup k' (alInsert k v l) = alLookup k' l := by
  simp [alInsert, alLookup, h, alLookup_alErase_ne _ _ _ h]

theorem mem_setInsert (x y : Nat) (l : List Nat) :
    x ∈ setInsert y l ↔ x = y ∨ x ∈ l := by
  by_cases hy : y ∈ l
  · simp only [setInsert, if_pos hy]
    constructor
    · exact fun hx => Or.inr hx
    · rintro (rfl | hx)
      · exact hy
      · exact hx
  · simp [setInsert, hy, List.mem_cons]

theorem nodup_setInsert (y : Nat) (l : List Nat) (h : l.Nodup) :
    (setInsert y l).Nodup := by
  by_cases hy : y ∈ l
  · simpa [setInsert, hy] using h
  · simp only [setInsert, if_neg hy, List.nodup_cons]
    exact ⟨hy, h⟩

theorem length_setInsert_of_not_mem (y : Nat) (l : List Nat) (hy : y ∉ l) :
    (setInsert y l).length = l.length + 1 := by
  simp [setInsert, hy]

theorem mem_setRemove (x y : Nat) (l : List Nat) :
    x ∈ setRemove y l ↔ x ∈ l ∧ x ≠ y := by
  induction l with
  | nil => simp [setRemove]
  | cons z rest ih =>
    by_cases hz : z = y
    · subst hz
      by_cases hx : x = z
      · subst hx
        simp [setRemove, ih]
      · simp [setRemove, hx, ih]
    · by_cases hx : x = z
      · subst hx
        simp [setRemove, hz]
      · simp [setRemove, hz, hx, ih]

theorem setRemove_of_not_mem (y : Nat) (l : List Nat) (hy : y ∉ l) :
    setRemove y l = l := by
  induction l with
  | nil => rfl
  | cons z rest ih =>
    have hz : ¬(z = y) := fun h => hy (h ▸ List.mem_cons_self z rest)
    have hr : y ∉ rest := fun h => hy (List.mem_cons_of_mem z h)
    simp [setRemove, hz, ih hr]

theorem nodup_setRemove (y : Nat) (l : List Nat) (h : l.Nodup) :
    (setRemove y l).Nodup := by
  induction l with
  | nil => simp [setRemove]
  | cons z rest ih =>
    rw [List.nodup_cons] at h
    by_cases hz : z = y
    · simpa [setRemove, hz] using ih h.2
    · simp only [setRemove, if_neg hz, List.nodup_cons]
      refine ⟨fun hmem => ?_, ih h.2⟩
      exact h.1 ((mem_setRemove z y rest).mp hmem).1

theorem length_setRemove_of_mem (y : Nat) (l : List Nat) (hy : y ∈ l) (h : l.Nodup) :
    (setRemove y l).length + 1 = l.length := by
  induction l with
  | nil => cases hy
  | cons z rest ih =>
    rw [List.nodup_cons] at h
    by_cases hz : z = y
    · subst hz
      rw [setRemove, if_pos rfl, setRemove_of_not_mem z rest h.1]
      simp
    · have hy' : y ∈ rest := by
        cases List.mem_cons.mp hy with
        | inl heq => exact absurd heq.symm hz
        | inr hmem => exact hmem
      simp only [setRemove, if_neg hz, List.length_cons]
      rw [← ih hy' h.2]

theorem getD_set_self {α : Type} (l : List α) (p : Nat) (a d : α) (h : p < l.length) :
    (l.set p a).getD p d = a := by
  induction l generalizing p with
  | nil => simp at h
  | cons x rest ih =>
    cases p with
    | zero => rfl
    | succ q =>
      simp only [List.set, List.getD_cons_succ]
      exact ih q (by simpa using h)

theorem getD_set_ne {α : Type} (l : List α) (p q : Nat) (a d : α) (h : p ≠ q) :
    (l.set p a).getD q d = l.getD q d := by
  induction l generalizing p q with
  | nil => rfl
  | cons x rest ih =>
    cases p with
    | zero =>
      cases q with
      | zero => exact absurd rfl h
      | succ q' => simp [List.set]
    | succ p' =>
      cases q with
      | zero => simp [List.set]
      | succ q' =>
        simp only [List.set, List.getD_cons_succ]
        exact ih p' q' (fun heq => h (by rw [heq]))

theorem getD_false_of_le (l : List Bool) (p : Nat) (h : l.length ≤ p) :
    l.getD p false = false := by
  induction l generalizing p with
  | nil => rfl
  | cons x rest ih =>
    cases p with
    | zero => simp at h
    | succ q =>
      simp only [List.getD_cons_succ]
      exact ih q (by simpa using h)

theorem countTrue_set_true (l : List Bool) (p : Nat) (hlt : p < l.length)
    (h : l.getD p false = false) : countTrue (l.set p true) = countTrue l + 1 := by
  induction l generalizing p with
  | nil => simp at hlt
  | cons b rest ih =>
    cases p with
    | zero =>
      have hb : b = false := h
      subst hb
      simp [List.set, countTrue, Nat.add_comm]
    | succ q =>
      simp only [List.set, countTrue]
      rw [ih q (by simpa using hlt) (by simpa using h)]
      omega

theorem countTrue_set_false (l : List Bool) (p : Nat) (hlt : p < l.length)
    (h : l.getD p false = true) : countTrue (l.set p false) + 1 = countTrue l := by
  induction l generalizing p with
  | nil => simp at hlt
  | cons b rest ih =>
    cases p with
    | zero =>
      have hb : b = true := h
      subst hb
      simp [List.set, countTrue, Nat.add_comm]
    | succ q =>
      simp only [List.set, countTrue]
      rw [← ih q (by simpa using hlt) (by simpa using h)]
      omega

theorem countTrue_map_not (l : List Bool) :
    countTrue (l.map (fun b => !b)) + countTrue l = l.length := by
  induction l with
  | nil => rfl
  | cons b rest ih =>
    cases b <;> simp [countTrue, List.map] <;> omega

theorem getD_map_not (l : List Bool) (p : Nat) (h : p < l.length) :
    (l.map (fun b => !b)).getD p false = !(l.getD p false) := by
  induction l generalizing p with
  | nil => simp at h
  | cons b rest ih =>
    cases p with
    | zero => rfl
    | succ q =>
      simp only [List.map, List.getD_cons_succ]
      exact ih q (by simpa using h)

theorem firstMatchFrom_some (bf : List Bool) (l : List Bool) :
    ∀ (i n : Nat), firstMatchFrom bf l i = some n →
    ∃ j, j < l.length ∧ n = i + j ∧ l.getD j false = true ∧ bf.getD n false = true ∧
      ∀ m, m < j → ¬(l.getD m false = true ∧ bf.getD (i + m) false = true) := by
  induction l with
  | nil => intro i n h; cases h
  | cons b rest ih =>
    intro i n h
    by_cases hb : (b && bf.getD i false) = true
    · rw [firstMatchFrom, if_pos hb] at h
      cases h
      rw [Bool.and_eq_true] at hb
      exact ⟨0, by simp, by omega, hb.1, by simpa using hb.2, fun m hm => absurd hm (by omega)⟩
    · rw [firstMatchFrom, if_neg hb] at h
      obtain ⟨j, hj, hn, hget, hbf, hmin⟩ := ih (i + 1) n h
      refine ⟨j + 1, by simpa using hj, by omega, by simpa using hget, hbf, ?_⟩
      intro m hm
      cases m with
      | zero =>
        rintro ⟨h1, h2⟩
        exact hb (by simp_all)
      | succ m' =>
        have := hmin m' (by omega)
        simpa [Nat.add_assoc, Nat.add_comm 1 m'] using this

theorem firstMatchFrom_isSome (bf : List Bool) (l : List Bool) :
    ∀ (i : Nat), (∃ j, j < l.length ∧ l.getD j false = true ∧ bf.getD (i + j) false = true) →
    (firstMatchFrom bf l i).isSome = true := by
  induction l with
  | nil => intro i ⟨j, hj, _⟩; simp at hj
  | cons b rest ih =>
    intro i ⟨j, hj, hget, hbf⟩
    by_cases hb : (b && bf.getD i false) = true
    · rw [firstMatchFrom, if_pos hb]; rfl
    · rw [firstMatchFrom, if_neg hb]
      cases j with
      | zero =>
        exfalso
        apply hb
        rw [Bool.and_eq_true]
        exact ⟨hget, by simpa using hbf⟩
      | succ j' =>
        apply ih (i + 1)
        refine ⟨j', by simpa using hj, by simpa using hget, ?_⟩
        simpa [Nat.add_assoc, Nat.add_comm 1 j'] using hbf

theorem firstMatch_eq_some (needed bf : List Bool) (n : Nat)
    (h : firstMatch needed bf = some n) :
    n < needed.length ∧ needed.getD n false = true ∧ bf.getD n false = true ∧
      ∀ m, m < n → ¬(needed.getD m false = true ∧ bf.getD m false = true) := by
  obtain ⟨j, hj, hn, hget, hbf, hmin⟩ := firstMatchFrom_some bf needed 0 n h
  have hj' : j = n := by omega
  subst hj'
  exact ⟨hj, hget, hbf, fun m hm => by simpa using hmin m hm⟩

theorem firstMatch_isSome (needed bf : List Bool)
    (h : ∃ j, j < needed.length ∧ needed.getD j false = true ∧ bf.getD j false = true) :
    (firstMatch needed bf).isSome = true := by
  apply firstMatchFrom_isSome
  obtain ⟨j, h1, h2, h3⟩ := h
  exact ⟨j, h1, h2, by simpa using h3⟩

theorem set_of_length_le {α : Type} (l : List α) (p : Nat) (a : α) (h : l.length ≤ p) :
    l.set p a = l := by
  induction l generalizing p with
  | nil => rfl
  | cons x rest ih =>
    cases p with
    | zero => simp at h
    | succ q =>
      simp only [List.set]
      rw [ih q (by simpa using h)]

theorem getD_set_true_mono (l : List Bool) (p q : Nat) (h : l.getD q false = true) :
    (l.set p true).getD q false = true := by
  by_cases hq : q < l.length
  · by_cases hpq : p = q
    · subst hpq
      exact getD_set_self l p true false hq
    · rw [getD_set_ne l p q true false hpq]
      exact h
  · rw [getD_false_of_le l q (by omega)] at h
    cases h

/-! ### Lemmas about cancelAll and clearRequestsForPiece -/

theorem cancelAll_cons (ct : ChunkTracker) (r : InflightRequest) (rest : List InflightRequest) :
    TorrentState.cancelAll ct (r :: rest) =
      TorrentState.cancelAll (ct.mark_chunk_request_cancelled r.piece r.chunk) rest := rfl

theorem cancelAll_haveBf (ct : ChunkTracker) (reqs : List InflightRequest) :
    (TorrentState.cancelAll ct reqs).haveBf = ct.haveBf := by
  induction reqs generalizing ct with
  | nil => rfl
  | cons r rest ih =>
    simpa [TorrentState.cancelAll, List.foldl, ChunkTracker.mark_chunk_request_cancelled]
      using ih (ct.mark_chunk_request_cancelled r.piece r.chunk)

theorem cancelAll_needed_length (ct : ChunkTracker) (reqs : List InflightRequest) :
    (TorrentState.cancelAll ct reqs).needed.length = ct.needed.length := by
  induction reqs generalizing ct with
  | nil => rfl
  | cons r rest ih =>
    have := ih (ct.mark_chunk_request_cancelled r.piece r.chunk)
    simpa [TorrentState.cancelAll, List.foldl, ChunkTracker.mark_chunk_request_cancelled,
      List.length_set] using this

theorem cancelAll_needed_mono (ct : ChunkTracker) (reqs : List InflightRequest) (q : Nat)
    (h : ct.needed.getD q false = true) :
    (TorrentState.cancelAll ct reqs).needed.getD q false = true := by
  induction reqs generalizing ct with
  | nil => exact h
  | cons r rest ih =>
    apply ih
    simpa [ChunkTracker.mark_chunk_request_cancelled] using
      getD_set_true_mono ct.needed r.piece q h

theorem cancelAll_needed_of_mem (ct : ChunkTracker) (reqs : List InflightRequest)
    (r : InflightRequest) (hr : r ∈ reqs) (hlt : r.piece < ct.needed.length) :
    (TorrentState.cancelAll ct reqs).needed.getD r.piece false = true := by
  induction reqs generalizing ct with
  | nil => cases hr
  | cons r0 rest ih =>
    rw [cancelAll_cons]
    cases List.mem_cons.mp hr with
    | inl heq =>
      subst heq
      apply cancelAll_needed_mono
      exact getD_set_self ct.needed r.piece true false hlt
    | inr hmem =>
      apply ih _ hmem
      simpa [ChunkTracker.mark_chunk_request_cancelled, List.length_set] using hlt

theorem alLookup_clearRequests (p : Nat) (states : List (Nat × PeerState)) (h : Nat) :
    alLookup h (clearRequestsForPiece p states) =
      (alLookup h states).map (fun s =>
        match s with
        | PeerState.Live l => PeerState.Live
            { l with inflight_requests := l.inflight_requests.filter (fun r => r.piece != p) }
        | other => other) := by
  induction states with
  | nil => rfl
  | cons e rest ih
  =>
    obtain ⟨k, s⟩ := e
    by_cases hk : h = k
    · cases s <;> simp [clearRequestsForPiece, alLookup, hk]
    · cases s <;> simpa [clearRequestsForPiece, alLookup, hk] using ih

/-! ### Transport lemmas for get_live across state updates -/

theorem get_live_eq (ps : PeerStates) (h : Nat) :
    ps.get_live h = Option.bind (alLookup h ps.states) liveOf := by
  unfold PeerStates.get_live
  cases alLookup h ps.states with
  | none => rfl
  | some s => cases s <;> rfl

theorem get_live_of_states (ps ps' : PeerStates) (h a : Nat) (v : PeerState)
    (hs : ps'.states = alInsert a v ps.states) :
    ps'.get_live h = if h = a then liveOf v else ps.get_live h := by
  rw [get_live_eq, hs]
  by_cases hha : h = a
  · subst hha
    rw [alLookup_alInsert_self, if_pos rfl]
    rfl
  · rw [alLookup_alInsert_ne _ _ _ _ hha, if_neg hha, ← get_live_eq]

theorem get_live_of_states_erase (ps ps' : PeerStates) (h a : Nat)
    (hs : ps'.states = alErase a ps.states) :
    ps'.get_live h = if h = a then none else ps.get_live h := by
  rw [get_live_eq, hs]
  by_cases hha : h = a
  · subst hha
    rw [alLookup_alErase_self, if_pos rfl]
    rfl
  · rw [alLookup_alErase_ne _ _ _ hha, if_neg hha, ← get_live_eq]

theorem get_live_of_states_clear (ps ps' : PeerStates) (p h : Nat)
    (hs : ps'.states = clearRequestsForPiece p ps.states) :
    ps'.get_live h = (ps.get_live h).map (fun l =>
      { l with inflight_requests := l.inflight_requests.filter (fun r => r.piece != p) }) := by
  rw [get_live_eq, hs, alLookup_clearRequests, get_live_eq]
  cases alLookup h ps.states with
  | none => rfl
  | some s => cases s <;> rfl

/-- The engine invariant only watches chunks, inflight_pieces and the live
peers' requests: an operation that keeps chunks, keeps inflight_pieces and
keeps every live peer's requests safe preserves it. -/
theorem engineInv_of_peersChange (L : Lengths) (ts ts' : TorrentStateLocked)
    (inv : EngineInv L ts)
    (hckH : ts'.chunks.haveBf = ts.chunks.haveBf)
    (hckN : ts'.chunks.needed = ts.chunks.needed)
    (hinf : ts'.peers.inflight_pieces = ts.peers.inflight_pieces)
    (hreq : ∀ h l, ts'.peers.get_live h = some l →
      ∀ r ∈ l.inflight_requests, r.piece ∈ ts.peers.inflight_pieces) :
    EngineInv L ts' := by
  refine ⟨?_, ?_, ?_, ?_, ?_, ?_, ?_⟩
  · rw [hckH]; exact inv.have_len
  · rw [hckN]; exact inv.needed_len
  · rw [hinf]; exact inv.inflight_nodup
  · intro p
    rw [hinf, hckH, hckN]
    exact inv.inflight_iff p
  · rw [hckH, hckN]; exact inv.have_needed_disjoint
  · intro h l hget r hr
    rw [hinf]
    exact hreq h l hget r hr
  · rw [hckH, hckN, hinf]
    exact inv.sum_eq

/-- Shape of a successful add_if_not_seen: the handle is the address, the
address was neither seen nor a key of states, and the result records the
Connecting entry, the tx channel and the seen mark. -/
theorem add_if_not_seen_some (ps : PeerStates) (a h0 : Nat) (ps' : PeerStates)
    (heq : ps.add_if_not_seen a = some (h0, ps')) :
    h0 = a ∧ a ∉ ps.seen_peers ∧ alLookup a ps.states = none ∧
    ps' = { ps with
      states := alInsert a (PeerState.Connecting a) ps.states
      tx := setInsert a ps.tx
      seen_peers := setInsert a ps.seen_peers } := by
  unfold PeerStates.add_if_not_seen PeerStates.add at heq
  by_cases hseen : a ∈ ps.seen_peers
  · rw [if_pos hseen] at heq
    cases heq
  · rw [if_neg hseen] at heq
    by_cases hks : (alLookup a ps.states).isSome = true
    · rw [if_pos hks] at heq
      cases heq
    · rw [if_neg hks] at heq
      have hnone : alLookup a ps.states = none := by
        cases hv : alLookup a ps.states with
        | none => rfl
        | some v => rw [hv] at hks; simp at hks
      injection heq with heq'
      injection heq' with h1 h2
      exact ⟨h1.symm, hseen, hnone, h2.symm⟩

/-- Shape of a successful reservation, read off the control flow of
TorrentState::reserve_next_needed_piece: the peer is live and unchoked,
has a bitfield, the scan found the piece, the index is valid, and the
mutation is exactly the inflight insert plus reserve_needed_piece. -/
theorem reserve_some_shape (L : Lengths) (ts : TorrentStateLocked) (h n : Nat)
    (ts' : TorrentStateLocked)
    (heq : TorrentState.reserve_next_needed_piece L ts h = some (n, ts')) :
    ∃ l bf, ts.peers.get_live h = some l ∧ l.i_am_choked = false ∧ l.bitfield = some bf ∧
      firstMatch ts.chunks.needed bf = some n ∧ n < L.total_pieces ∧
      ts' = { ts with
        peers := { ts.peers with inflight_pieces := setInsert n ts.peers.inflight_pieces }
        chunks := ts.chunks.reserve_needed_piece n } := by
  unfold TorrentState.reserve_next_needed_piece at heq
  split at heq
  · cases heq
  · cases heq
  · rename_i hch
    split at heq
    · cases heq
    · rename_i l hlv
      split at heq
      · cases heq
      · rename_i bf hbf
        split at heq
        · cases heq
        · rename_i n0 hfm
          split at heq
          · cases heq
          · rename_i n1 hv
            injection heq with heq'
            injection heq' with h1 h2
            subst h1
            unfold Lengths.validate_piece_index at hv
            by_cases hT : n0 < L.total_pieces
            · rw [if_pos hT] at hv
              injection hv with hv'
              subst hv'
              have hich : l.i_am_choked = false := by
                unfold TorrentState.am_i_choked at hch
                rw [hlv] at hch
                injection hch
              exact ⟨l, bf, hlv, hich, hbf, hfm, hT, h2.symm⟩
            · rw [if_neg hT] at hv
              cases hv

/-! ### Preservation of the engine invariant by each operation -/

theorem engineInv_addPeer (L : Lengths) (ts : TorrentStateLocked) (a : Nat)
    (inv : EngineInv L ts) : EngineInv L (step L ts (Op.addPeer a)) := by
  simp only [step]
  cases hadd : ts.peers.add_if_not_seen a with
  | none => exact inv
  | some pr =>
    obtain ⟨h0, ps'⟩ := pr
    obtain ⟨rfl, hseen, hks, rfl⟩ := add_if_not_seen_some ts.peers a h0 ps' hadd
    refine engineInv_of_peersChange L ts _ inv rfl rfl rfl ?_
    intro h l hget r hr
    rw [get_live_of_states ts.peers _ h h0 (PeerState.Connecting h0) rfl] at hget
    by_cases hha : h = h0
    · rw [if_pos hha] at hget
      cases hget
    · rw [if_neg hha] at hget
      exact inv.req_inflight h l hget r hr

theorem engineInv_setLive (L : Lengths) (ts : TorrentStateLocked) (h pid : Nat)
    (inv : EngineInv L ts) : EngineInv L (step L ts (Op.setLive h pid)) := by
  simp only [step]
  unfold TorrentState.set_peer_live
  cases hlk : alLookup h ts.peers.states with
  | none => exact inv
  | some s =>
    cases s with
    | Live l => exact inv
    | Connecting a =>
      refine engineInv_of_peersChange L ts _ inv rfl rfl rfl ?_
      intro h' l' hget r hr
      rw [get_live_of_states ts.peers _ h' h (PeerState.Live (LivePeerState.new pid)) rfl] at hget
      by_cases hh : h' = h
      · rw [if_pos hh] at hget
        injection hget with hl
        subst hl
        cases hr
      · rw [if_neg hh] at hget
        exact inv.req_inflight h' l' hget r hr

theorem engineInv_setChoked (L : Lengths) (ts : TorrentStateLocked) (h : Nat) (b : Bool)
    (inv : EngineInv L ts) : EngineInv L (step L ts (Op.setChoked h b)) := by
  simp only [step]
  unfold PeerStates.mark_i_am_choked
  cases hlv : ts.peers.get_live h with
  | none => exact inv
  | some l =>
    refine engineInv_of_peersChange L ts _ inv rfl rfl rfl ?_
    intro h' l' hget r hr
    rw [get_live_of_states ts.peers _ h' h (PeerState.Live { l with i_am_choked := b }) rfl] at hget
    by_cases hh : h' = h
    · rw [if_pos hh] at hget
      injection hget with hl
      subst hl
      exact inv.req_inflight h l hlv r hr
    · rw [if_neg hh] at hget
      exact inv.req_inflight h' l' hget r hr

theorem engineInv_giveBitfield (L : Lengths) (ts : TorrentStateLocked) (h : Nat)
    (bytes : List Nat) (inv : EngineInv L ts) :
    EngineInv L (step L ts (Op.giveBitfield h bytes)) := by
  simp only [step]
  unfold PeerStates.update_bitfield_from_vec
  cases hlv : ts.peers.get_live h with
  | none => exact inv
  | some l =>
    refine engineInv_of_peersChange L ts _ inv rfl rfl rfl ?_
    intro h' l' hget r hr
    rw [get_live_of_states ts.peers _ h' h
      (PeerState.Live { l with bitfield := some (bfFromVec bytes) }) rfl] at hget
    by_cases hh : h' = h
    · rw [if_pos hh] at hget
      injection hget with hl
      subst hl
      exact inv.req_inflight h l hlv r hr
    · rw [if_neg hh] at hget
      exact inv.req_inflight h' l' hget r hr

theorem engineInv_request (L : Lengths) (ts : TorrentStateLocked) (h p c : Nat)
    (inv : EngineInv L ts) : EngineInv L (step L ts (Op.request h p c)) := by
  simp only [step]
  unfold issue_request
  cases hlv : ts.peers.get_live h with
  | none => exact inv
  | some l =>
    dsimp only
    by_cases hcond : p ∈ ts.peers.inflight_pieces ∧ c < L.chunks_per_piece p
    · rw [if_pos hcond]
      by_cases hmem : (⟨p, c⟩ : InflightRequest) ∈ l.inflight_requests
      · rw [if_pos hmem]
        refine engineInv_of_peersChange L ts _ inv rfl rfl rfl ?_
        intro h' l' hget r hr
        rw [get_live_of_states ts.peers _ h' h
          (PeerState.Live { l with inflight_requests := l.inflight_requests }) rfl] at hget
        by_cases hh : h' = h
        · rw [if_pos hh] at hget
          injection hget with hl
          subst hl
          exact inv.req_inflight h l hlv r hr
        · rw [if_neg hh] at hget
          exact inv.req_inflight h' l' hget r hr
      · rw [if_neg hmem]
        refine engineInv_of_peersChange L ts _ inv rfl rfl rfl ?_
        intro h' l' hget r hr
        rw [get_live_of_states ts.peers _ h' h
          (PeerState.Live { l with inflight_requests := ⟨p, c⟩ :: l.inflight_requests })
          rfl] at hget
        by_cases hh : h' = h
        · rw [if_pos hh] at hget
          injection hget with hl
          subst hl
          cases List.mem_cons.mp hr with
          | inl heq =>
            subst heq
            exact hcond.1
          | inr hmem2 => exact inv.req_inflight h l hlv r hmem2
        · rw [if_neg hh] at hget
          exact inv.req_inflight h' l' hget r hr
    · rw [if_neg hcond]
      exact inv

theorem engineInv_reserve (L : Lengths) (ts : TorrentStateLocked) (h : Nat)
    (inv : EngineInv L ts) : EngineInv L (step L ts (Op.reserve h)) := by
  simp only [step]
  cases hres : TorrentState.reserve_next_needed_piece L ts h with
  | none => exact inv
  | some pr =>
    obtain ⟨n, ts2⟩ := pr
    obtain ⟨l, bf, hlv, hch, hbf, hfm, hnT, rfl⟩ := reserve_some_shape L ts h n ts2 hres
    obtain ⟨hlen, hneed, hbfn, hleast⟩ := firstMatch_eq_some _ _ _ hfm
    have hnlen : n < ts.chunks.needed.length := hlen
    have hnotin : n ∉ ts.peers.inflight_pieces := by
      intro hmem
      have hx := ((inv.inflight_iff n).mp hmem).2.1
      rw [hneed] at hx
      cases hx
    have hhaven : ts.chunks.haveBf.getD n false = false := by
      cases hcase : ts.chunks.haveBf.getD n false with
      | false => rfl
      | true => exact absurd ⟨hcase, hneed⟩ (inv.have_needed_disjoint n)
    refine ⟨?_, ?_, ?_, ?_, ?_, ?_, ?_⟩
    · exact inv.have_len
    · show (ts.chunks.needed.set n false).length = L.total_pieces
      rw [List.length_set]
      exact inv.needed_len
    · exact nodup_setInsert _ _ inv.inflight_nodup
    · intro p
      show p ∈ setInsert n ts.peers.inflight_pieces ↔
        p < L.total_pieces ∧ (ts.chunks.needed.set n false).getD p false = false ∧
          ts.chunks.haveBf.getD p false = false
      by_cases hpn : p = n
      · subst hpn
        constructor
        · intro _
          exact ⟨hnT, getD_set_self _ _ _ _ hnlen, hhaven⟩
        · intro _
          exact (mem_setInsert p p _).mpr (Or.inl rfl)
      · rw [mem_setInsert, getD_set_ne _ _ _ _ _ (fun heq => hpn heq.symm)]
        constructor
        · intro hor
          cases hor with
          | inl heq => exact absurd heq hpn
          | inr hp => exact (inv.inflight_iff p).mp hp
        · intro hrhs
          exact Or.inr ((inv.inflight_iff p).mpr hrhs)
    · intro i
      show ¬(ts.chunks.haveBf.getD i false = true ∧
        (ts.chunks.needed.set n false).getD i false = true)
      by_cases hin : i = n
      · subst hin
        rintro ⟨h1, h2⟩
        rw [getD_set_self _ _ _ _ hnlen] at h2
        cases h2
      · rw [getD_set_ne _ _ _ _ _ (fun heq => hin heq.symm)]
        exact inv.have_needed_disjoint i
    · intro h' l' hget r hr
      have hmem : r.piece ∈ ts.peers.inflight_pieces := inv.req_inflight h' l' hget r hr
      exact (mem_setInsert _ _ _).mpr (Or.inr hmem)
    · show countTrue ts.chunks.haveBf + countTrue (ts.chunks.needed.set n false) +
        (setInsert n ts.peers.inflight_pieces).length = L.total_pieces
      have e1 := countTrue_set_false ts.chunks.needed n hnlen hneed
      have e2 := length_setInsert_of_not_mem n ts.peers.inflight_pieces hnotin
      have e3 := inv.sum_eq
      omega

theorem mark_chunk_downloaded_fields (L : Lengths) (ct : ChunkTracker) (p c : Nat) :
    (ct.mark_chunk_downloaded L p c).2.haveBf = ct.haveBf ∧
    (ct.mark_chunk_downloaded L p c).2.needed = ct.needed := by
  unfold ChunkTracker.mark_chunk_downloaded
  by_cases hh : ct.is_piece_have p = true
  · rw [if_pos hh]
    exact ⟨rfl, rfl⟩
  · rw [if_neg hh]
    dsimp only
    split <;> exact ⟨rfl, rfl⟩

theorem engineInv_deliver (L : Lengths) (ts : TorrentStateLocked) (h p c : Nat) (v : Bool)
    (inv : EngineInv L ts) : EngineInv L (step L ts (Op.deliver h p c v)) := by
  simp only [step]
  unfold deliver_chunk
  cases hlv : ts.peers.get_live h with
  | none => exact inv
  | some l =>
    dsimp only
    by_cases hmem : (⟨p, c⟩ : InflightRequest) ∈ l.inflight_requests
    · rw [if_pos hmem]
      have hpinf : p ∈ ts.peers.inflight_pieces := inv.req_inflight h l hlv ⟨p, c⟩ hmem
      obtain ⟨hpT, hpneed, hphave⟩ := (inv.inflight_iff p).mp hpinf
      have hplenH : p < ts.chunks.haveBf.length := by rw [inv.have_len]; exact hpT
      have hplenN : p < ts.chunks.needed.length := by rw [inv.needed_len]; exact hpT
      have hfields := mark_chunk_downloaded_fields L ts.chunks p c
      cases hmc : ts.chunks.mark_chunk_downloaded L p c with
      | mk outcome ct' =>
        rw [hmc] at hfields
        dsimp only at hfields
        obtain ⟨hB, hN⟩ := hfields
        cases outcome with
        | AlreadyHave =>
          refine engineInv_of_peersChange L ts _ inv rfl rfl rfl ?_
          intro h' l' hget r hr
          rw [get_live_of_states ts.peers _ h' h
            (PeerState.Live { l with
              inflight_requests := l.inflight_requests.filter (fun r => r != ⟨p, c⟩) })
            rfl] at hget
          by_cases hh : h' = h
          · rw [if_pos hh] at hget
            injection hget with hl
            subst hl
            exact inv.req_inflight h l hlv r (List.mem_of_mem_filter hr)
          · rw [if_neg hh] at hget
            exact inv.req_inflight h' l' hget r hr
        | NotLastChunk =>
          refine engineInv_of_peersChange L ts _ inv hB hN rfl ?_
          intro h' l' hget r hr
          rw [get_live_of_states ts.peers _ h' h
            (PeerState.Live { l with
              inflight_requests := l.inflight_requests.filter (fun r => r != ⟨p, c⟩) })
            rfl] at hget
          by_cases hh : h' = h
          · rw [if_pos hh] at hget
            injection hget with hl
            subst hl
            exact inv.req_inflight h l hlv r (List.mem_of_mem_filter hr)
          · rw [if_neg hh] at hget
            exact inv.req_inflight h' l' hget r hr
        | PieceComplete =>
          have hreqNew : ∀ h' l', (PeerStates.get_live
              { ts.peers with
                inflight_pieces := setRemove p ts.peers.inflight_pieces
                states := clearRequestsForPiece p (alInsert h
                  (PeerState.Live { l with
                    inflight_requests := l.inflight_requests.filter (fun r => r != ⟨p, c⟩) })
                  ts.peers.states) } h' = some l') →
              ∀ r ∈ l'.inflight_requests, r.piece ∈ setRemove p ts.peers.inflight_pieces := by
            intro h' l' hget r hr
            rw [get_live_of_states_clear
              { ts.peers with
                states := alInsert h
                  (PeerState.Live { l with
                    inflight_requests := l.inflight_requests.filter (fun r => r != ⟨p, c⟩) })
                  ts.peers.states } _ p h' rfl] at hget
            cases hmid : PeerStates.get_live
                { ts.peers with
                  states := alInsert h
                    (PeerState.Live { l with
                      inflight_requests := l.inflight_requests.filter (fun r => r != ⟨p, c⟩) })
                    ts.peers.states } h' with
            | none => rw [hmid] at hget; cases hget
            | some lmid =>
              rw [hmid, Option.map_some'] at hget
              injection hget with hl
              subst hl
              have hr' := List.mem_filter.mp hr
              have hrp : r.piece ≠ p := by
                have := hr'.2
                simpa using this
              have hrmid : r ∈ lmid.inflight_requests := hr'.1
              rw [get_live_of_states ts.peers _ h' h
                (PeerState.Live { l with
                  inflight_requests := l.inflight_requests.filter (fun r => r != ⟨p, c⟩) })
                rfl] at hmid
              by_cases hh : h' = h
              · rw [if_pos hh] at hmid
                injection hmid with hl2
                subst hl2
                have : r ∈ l.inflight_requests := List.mem_of_mem_filter hrmid
                exact (mem_setRemove _ _ _).mpr ⟨inv.req_inflight h l hlv r this, hrp⟩
              · rw [if_neg hh] at hmid
                exact (mem_setRemove _ _ _).mpr ⟨inv.req_inflight h' lmid hmid r hrmid, hrp⟩
          cases v with
          | true =>
            dsimp only
            refine ⟨?_, ?_, ?_, ?_, ?_, ?_, ?_⟩
            · show (ct'.haveBf.set p true).length = L.total_pieces
              rw [List.length_set, hB]
              exact inv.have_len
            · show ct'.needed.length = L.total_pieces
              rw [hN]
              exact inv.needed_len
            · exact nodup_setRemove _ _ inv.inflight_nodup
            · intro q
              show q ∈ setRemove p ts.peers.inflight_pieces ↔
                q < L.total_pieces ∧ ct'.needed.getD q false = false ∧
                  (ct'.haveBf.set p true).getD q false = false
              rw [mem_setRemove, hN]
              by_cases hqp : q = p
              · subst hqp
                constructor
                · rintro ⟨_, hne⟩
                  exact absurd rfl hne
                · rintro ⟨_, _, hfalse⟩
                  rw [hB] at hfalse
                  rw [getD_set_self _ _ _ _ hplenH] at hfalse
                  cases hfalse
              · rw [hB, getD_set_ne _ _ _ _ _ (fun heq => hqp heq.symm)]
                constructor
                · rintro ⟨hq, _⟩
                  exact (inv.inflight_iff q).mp hq
                · intro hrhs
                  exact ⟨(inv.inflight_iff q).mpr hrhs, hqp⟩
            · intro i
              show ¬((ct'.haveBf.set p true).getD i false = true ∧
                ct'.needed.getD i false = true)
              rw [hN, hB]
              by_cases hip : i = p
              · subst hip
                rintro ⟨_, h2⟩
                rw [hpneed] at h2
                cases h2
              · rw [getD_set_ne _ _ _ _ _ (fun heq => hip heq.symm)]
                exact inv.have_needed_disjoint i
            · exact hreqNew
            · show countTrue (ct'.haveBf.set p true) + countTrue ct'.needed +
                (setRemove p ts.peers.inflight_pieces).length = L.total_pieces
              rw [hN, hB]
              have e1 := countTrue_set_true ts.chunks.haveBf p hplenH hphave
              have e2 := length_setRemove_of_mem p ts.peers.inflight_pieces hpinf
                inv.inflight_nodup
              have e3 := inv.sum_eq
              omega
          | false =>
            dsimp only
            refine ⟨?_, ?_, ?_, ?_, ?_, ?_, ?_⟩
            · show ct'.haveBf.length = L.total_pieces
              rw [hB]
              exact inv.have_len
            · show (ct'.needed.set p true).length = L.total_pieces
              rw [List.length_set, hN]
              exact inv.needed_len
            · exact nodup_setRemove _ _ inv.inflight_nodup
            · intro q
              show q ∈ setRemove p ts.peers.inflight_pieces ↔
                q < L.total_pieces ∧ (ct'.needed.set p true).getD q false = false ∧
                  ct'.haveBf.getD q false = false
              rw [mem_setRemove, hB]
              by_cases hqp : q = p
              · subst hqp
                constructor
                · rintro ⟨_, hne⟩
                  exact absurd rfl hne
                · rintro ⟨_, hfalse, _⟩
                  rw [hN] at hfalse
                  rw [getD_set_self _ _ _ _ hplenN] at hfalse
                  cases hfalse
              · rw [hN, getD_set_ne _ _ _ _ _ (fun heq => hqp heq.symm)]
                constructor
                · rintro ⟨hq, _⟩
                  exact (inv.inflight_iff q).mp hq
                · intro hrhs
                  exact ⟨(inv.inflight_iff q).mpr hrhs, hqp⟩
            · intro i
              show ¬(ct'.haveBf.getD i false = true ∧
                (ct'.needed.set p true).getD i false = true)
              rw [hN, hB]
              by_cases hip : i = p
              · subst hip
                rintro ⟨h1, _⟩
                rw [hphave] at h1
                cases h1
              · rw [getD_set_ne _ _ _ _ _ (fun heq => hip heq.symm)]
                exact inv.have_needed_disjoint i
            · exact hreqNew
            · show countTrue ct'.haveBf + countTrue (ct'.needed.set p true) +
                (setRemove p ts.peers.inflight_pieces).length = L.total_pieces
              rw [hN, hB]
              have e1 := countTrue_set_true ts.chunks.needed p hplenN hpneed
              have e2 := length_setRemove_of_mem p ts.peers.inflight_pieces hpinf
                inv.inflight_nodup
              have e3 := inv.sum_eq
              omega
    · rw [if_neg hmem]
      exact inv

theorem engineInv_dropPeer (L : Lengths) (ts : TorrentStateLocked) (h : Nat)
    (inv : EngineInv L ts) (hclean : opClean ts (Op.dropPeer h) = true) :
    EngineInv L (step L ts (Op.dropPeer h)) := by
  simp only [step]
  unfold TorrentState.drop_peer PeerStates.drop_peer
  cases hlk : alLookup h ts.peers.states with
  | none =>
    refine engineInv_of_peersChange L ts _ inv rfl rfl rfl ?_
    intro h' l' hget r hr
    rw [get_live_of_states_erase ts.peers _ h' h rfl] at hget
    by_cases hh : h' = h
    · rw [if_pos hh] at hget
      cases hget
    · rw [if_neg hh] at hget
      exact inv.req_inflight h' l' hget r hr
  | some s =>
    cases s with
    | Connecting a =>
      refine engineInv_of_peersChange L ts _ inv rfl rfl rfl ?_
      intro h' l' hget r hr
      rw [get_live_of_states_erase ts.peers _ h' h rfl] at hget
      by_cases hh : h' = h
      · rw [if_pos hh] at hget
        cases hget
      · rw [if_neg hh] at hget
        exact inv.req_inflight h' l' hget r hr
    | Live l =>
      have hlv : ts.peers.get_live h = some l := by
        rw [get_live_eq, hlk]
        rfl
      have hclean' : l.inflight_requests.isEmpty = true := by
        simp only [opClean, hlv] at hclean
        exact hclean
      cases hre : l.inflight_requests with
      | cons r0 rs =>
        rw [hre] at hclean'
        cases hclean'
      | nil =>
        refine engineInv_of_peersChange L ts _ inv ?_ ?_ rfl ?_
        · show (TorrentState.cancelAll ts.chunks l.inflight_requests).haveBf =
            ts.chunks.haveBf
          rw [hre]
          rfl
        · show (TorrentState.cancelAll ts.chunks l.inflight_requests).needed =
            ts.chunks.needed
          rw [hre]
          rfl
        · intro h' l' hget r hr
          rw [get_live_of_states_erase ts.peers _ h' h rfl] at hget
          by_cases hh : h' = h
          · rw [if_pos hh] at hget
            cases hget
          · rw [if_neg hh] at hget
            exact inv.req_inflight h' l' hget r hr

/-- One clean step preserves the engine invariant. -/
theorem engineInv_step (L : Lengths) (ts : TorrentStateLocked) (op : Op)
    (inv : EngineInv L ts) (hclean : opClean ts op = true) :
    EngineInv L (step L ts op) := by
  cases op with
  | addPeer a => exact engineInv_addPeer L ts a inv
  | setLive h pid => exact engineInv_setLive L ts h pid inv
  | setChoked h b => exact engineInv_setChoked L ts h b inv
  | giveBitfield h bytes => exact engineInv_giveBitfield L ts h bytes inv
  | reserve h => exact engineInv_reserve L ts h inv
  | request h p c => exact engineInv_request L ts h p c inv
  | deliver h p c v => exact engineInv_deliver L ts h p c v inv
  | dropPeer h => exact engineInv_dropPeer L ts h inv hclean

/-- A clean trace preserves the engine invariant. -/
theorem engineInv_exec (L : Lengths) : ∀ (ops : List Op) (ts : TorrentStateLocked),
    EngineInv L ts → dropsAreClean L ts ops = true → EngineInv L (exec L ts ops) := by
  intro ops
  induction ops with
  | nil =>
    intro ts inv _
    exact inv
  | cons op rest ih =>
    intro ts inv hclean
    rw [dropsAreClean, Bool.and_eq_true] at hclean
    exact ih (step L ts op) (engineInv_step L ts op inv hclean.1) hclean.2

/-- The initial state satisfies the engine invariant as soon as needed is
the complement of have, spec section 3. -/
theorem engineInv_init (L : Lengths) (have0 : List Bool)
    (hlen : have0.length = L.total_pieces) :
    EngineInv L (initState have0 (have0.map (fun b => !b))) := by
  refine ⟨hlen, ?_, ?_, ?_, ?_, ?_, ?_⟩
  · show (have0.map (fun b => !b)).length = L.total_pieces
    rw [List.length_map]
    exact hlen
  · exact List.nodup_nil
  · intro p
    show p ∈ ([] : List Nat) ↔ p < L.total_pieces ∧
      (have0.map (fun b => !b)).getD p false = false ∧ have0.getD p false = false
    constructor
    · intro hmem
      cases hmem
    · rintro ⟨hpT, hneed, hhave⟩
      exfalso
      rw [getD_map_not have0 p (by rw [hlen]; exact hpT), hhave] at hneed
      cases hneed
  · intro i
    show ¬(have0.getD i false = true ∧ (have0.map (fun b => !b)).getD i false = true)
    rintro ⟨h1, h2⟩
    by_cases hi : i < have0.length
    · rw [getD_map_not have0 i hi, h1] at h2
      cases h2
    · rw [getD_false_of_le have0 i (by omega)] at h1
      cases h1
  · intro h l hget r hr
    cases hget
  · show countTrue have0 + countTrue (have0.map (fun b => !b)) +
      List.length [] = L.total_pieces
    have e1 := countTrue_map_not have0
    simp only [List.length_nil]
    omega

/-- C1 counterexample: the claimed invariant fails on the code as written.
With one piece and one chunk, the trace admits peer 0, makes it live and
unchoked, gives it a full bitfield, reserves piece 0 through
reserve_next_needed_piece, records the issued chunk request, and then
drops the peer through TorrentState::drop_peer.  The drop cancels the
request back into needed but never removes piece 0 from inflight_pieces,
so at the resulting quiescent point popcount(have) + popcount(needed) +
card(inflight_pieces) evaluates to 2 while total_pieces is 1, and piece 0
is a member of inflight_pieces although its needed bit is set again,
refuting both the sum equation and the stated equivalence. -/
theorem C1_counterexample :
    countTrue (exec ⟨1, fun _ => 1⟩ (initState [false] [true])
        [Op.addPeer 0, Op.setLive 0 7, Op.setChoked 0 false, Op.giveBitfield 0 [128],
         Op.reserve 0, Op.request 0 0 0, Op.dropPeer 0]).chunks.haveBf +
      countTrue (exec ⟨1, fun _ => 1⟩ (initState [false] [true])
        [Op.addPeer 0, Op.setLive 0 7, Op.setChoked 0 false, Op.giveBitfield 0 [128],
         Op.reserve 0, Op.request 0 0 0, Op.dropPeer 0]).chunks.needed +
      (exec ⟨1, fun _ => 1⟩ (initState [false] [true])
        [Op.addPeer 0, Op.setLive 0 7, Op.setChoked 0 false, Op.giveBitfield 0 [128],
         Op.reserve 0, Op.request 0 0 0, Op.dropPeer 0]).peers.inflight_pieces.length = 2 ∧
    (0 ∈ (exec ⟨1, fun _ => 1⟩ (initState [false] [true])
        [Op.addPeer 0, Op.setLive 0 7, Op.setChoked 0 false, Op.giveBitfield 0 [128],
         Op.reserve 0, Op.request 0 0 0, Op.dropPeer 0]).peers.inflight_pieces ∧
      (exec ⟨1, fun _ => 1⟩ (initState [false] [true])
        [Op.addPeer 0, Op.setLive 0 7, Op.setChoked 0 false, Op.giveBitfield 0 [128],
         Op.reserve 0, Op.request 0 0 0, Op.dropPeer 0]).chunks.needed.getD 0 false = true) := by
  decide

/-- C1 (amended): for every sequence of peer admissions, reservations,
chunk request recordings, chunk deliveries and drops starting from an
initial state whose needed bitfield is the complement of have, PROVIDED
every dropped peer holds no InflightRequest at the moment of the drop,
the engine satisfies popcount(have) + popcount(needed) +
card(inflight_pieces) = total_pieces at every quiescent point, and a piece
is in inflight_pieces exactly when the ChunkTracker has it reserved
(needed bit cleared) and not yet verified (have bit cleared).  The
restriction on drops is forced by the counterexample: drop_peer returns
cancelled pieces to needed without removing them from inflight_pieces. -/
theorem C1_pieces_partition (L : Lengths) (have0 : List Bool) (ops : List Op)
    (hlen : have0.length = L.total_pieces)
    (hclean : dropsAreClean L (initState have0 (have0.map (fun b => !b))) ops = true) :
    countTrue (exec L (initState have0 (have0.map (fun b => !b))) ops).chunks.haveBf +
      countTrue (exec L (initState have0 (have0.map (fun b => !b))) ops).chunks.needed +
      (exec L (initState have0 (have0.map (fun b => !b))) ops).peers.inflight_pieces.length =
        L.total_pieces ∧
    ∀ p, p ∈ (exec L (initState have0 (have0.map (fun b => !b))) ops).peers.inflight_pieces ↔
      (p < L.total_pieces ∧
        (exec L (initState have0 (have0.map (fun b => !b))) ops).chunks.needed.getD p false
          = false ∧
        (exec L (initState have0 (have0.map (fun b => !b))) ops).chunks.haveBf.getD p false
          = false) := by
  have inv := engineInv_exec L ops _ (engineInv_init L have0 hlen) hclean
  exact ⟨inv.sum_eq, inv.inflight_iff⟩

theorem alLookup_of_get_live (ps : PeerStates) (h : Nat) (l : LivePeerState)
    (hl : ps.get_live h = some l) : alLookup h ps.states = some (PeerState.Live l) := by
  rw [get_live_eq] at hl
  cases hk : alLookup h ps.states with
  | none => rw [hk] at hl; cases hl
  | some s =>
    rw [hk] at hl
    cases s with
    | Connecting a => cases hl
    | Live l2 =>
      injection hl with hl2
      rw [hl2]

/-- Witness for C1: a complete one-piece download trace (no drops) keeps
the partition, evaluated concretely. -/
theorem C1_pieces_partition_witness :
    countTrue (exec ⟨1, fun _ => 1⟩ (initState [false] ([false].map (fun b => !b)))
        [Op.addPeer 0, Op.setLive 0 7, Op.setChoked 0 false, Op.giveBitfield 0 [128],
         Op.reserve 0, Op.request 0 0 0, Op.deliver 0 0 0 true]).chunks.haveBf +
      countTrue (exec ⟨1, fun _ => 1⟩ (initState [false] ([false].map (fun b => !b)))
        [Op.addPeer 0, Op.setLive 0 7, Op.setChoked 0 false, Op.giveBitfield 0 [128],
         Op.reserve 0, Op.request 0 0 0, Op.deliver 0 0 0 true]).chunks.needed +
      (exec ⟨1, fun _ => 1⟩ (initState [false] ([false].map (fun b => !b)))
        [Op.addPeer 0, Op.setLive 0 7, Op.setChoked 0 false, Op.giveBitfield 0 [128],
         Op.reserve 0, Op.request 0 0 0, Op.deliver 0 0 0 true]).peers.inflight_pieces.length =
      (⟨1, fun _ => 1⟩ : Lengths).total_pieces :=
  (C1_pieces_partition ⟨1, fun _ => 1⟩ [false]
    [Op.addPeer 0, Op.setLive 0 7, Op.setChoked 0 false, Op.giveBitfield 0 [128],
     Op.reserve 0, Op.request 0 0 0, Op.deliver 0 0 0 true]
    rfl (by decide)).1

/-- C2: reserve_next_needed_piece returns None on a non-live or choked peer
(an early return, which in the source leaves the locked state unmutated —
in the embedding a None result carries no state change by construction);
otherwise, when some piece index is set both in needed and in the peer's
bitfield, it returns the lowest such index p, and the resulting state is
exactly the old one with p inserted into inflight_pieces and
reserve_needed_piece applied to the ChunkTracker. -/
theorem C2_reserve_next_needed_piece_spec (L : Lengths) (ts : TorrentStateLocked) (h : Nat)
    (hlen : ts.chunks.needed.length = L.total_pieces) :
    ((ts.peers.get_live h = none ∨
        ∃ l, ts.peers.get_live h = some l ∧ l.i_am_choked = true) →
      TorrentState.reserve_next_needed_piece L ts h = none) ∧
    (∀ l bf, ts.peers.get_live h = some l → l.i_am_choked = false → l.bitfield = some bf →
      (∃ i, i < ts.chunks.needed.length ∧ ts.chunks.needed.getD i false = true ∧
        bf.getD i false = true) →
      ∃ p, TorrentState.reserve_next_needed_piece L ts h =
          some (p, { ts with
            peers := { ts.peers with
              inflight_pieces := setInsert p ts.peers.inflight_pieces }
            chunks := ts.chunks.reserve_needed_piece p }) ∧
        ts.chunks.needed.getD p false = true ∧ bf.getD p false = true ∧
        (∀ m, m < p → ¬(ts.chunks.needed.getD m false = true ∧ bf.getD m false = true)) ∧
        p ∈ setInsert p ts.peers.inflight_pieces) := by
  constructor
  · rintro (hnone | ⟨l, hl, hch⟩)
    · have hai : TorrentState.am_i_choked ts h = none := by
        unfold TorrentState.am_i_choked
        rw [hnone]
        rfl
      unfold TorrentState.reserve_next_needed_piece
      rw [hai]
    · have hai : TorrentState.am_i_choked ts h = some true := by
        unfold TorrentState.am_i_choked
        rw [hl, Option.map_some', hch]
      unfold TorrentState.reserve_next_needed_piece
      rw [hai]
  · intro l bf hlv hch hbf hex
    have hai : TorrentState.am_i_choked ts h = some false := by
      unfold TorrentState.am_i_choked
      rw [hlv, Option.map_some', hch]
    have hsome := firstMatch_isSome ts.chunks.needed bf hex
    cases hfm : firstMatch ts.chunks.needed bf with
    | none =>
      rw [hfm] at hsome
      cases hsome
    | some n =>
      obtain ⟨hnlen, hneed, hbfn, hleast⟩ := firstMatch_eq_some _ _ _ hfm
      have hnT : n < L.total_pieces := hlen ▸ hnlen
      refine ⟨n, ?_, hneed, hbfn, hleast, (mem_setInsert n n _).mpr (Or.inl rfl)⟩
      unfold TorrentState.reserve_next_needed_piece
      rw [hai]
      dsimp only
      rw [hlv]
      dsimp only
      rw [hbf]
      dsimp only
      simp only [ChunkTracker.get_needed_pieces]
      rw [hfm]
      dsimp only
      unfold Lengths.validate_piece_index
      rw [if_pos hnT]

/-- Witness for C2, at the one-piece sample state: the peer is live,
unchoked, advertises piece 0, and piece 0 is needed, so the reservation
returns piece 0 and performs exactly the stated mutation. -/
theorem C2_reserve_next_needed_piece_spec_witness :
    ∃ p, TorrentState.reserve_next_needed_piece sampleLengths sampleState 0 =
        some (p, { sampleState with
          peers := { sampleState.peers with
            inflight_pieces := setInsert p sampleState.peers.inflight_pieces }
          chunks := sampleState.chunks.reserve_needed_piece p }) ∧
      sampleState.chunks.needed.getD p false = true ∧ [true].getD p false = true ∧
      (∀ m, m < p →
        ¬(sampleState.chunks.needed.getD m false = true ∧ [true].getD m false = true)) ∧
      p ∈ setInsert p sampleState.peers.inflight_pieces :=
  (C2_reserve_next_needed_piece_spec sampleLengths sampleState 0 rfl).2 sampleLive [true]
    rfl rfl rfl ⟨0, by decide, by decide, by decide⟩

/-- C3: reservation is exclusive.  When a reservation returns piece p, the
needed bit of p is cleared in the resulting state, and as long as any
later state still has the needed bit of p cleared (p is still reserved),
no reserve_next_needed_piece call by any peer can return p again: a
successful reservation only ever returns a piece whose needed bit is set
at the moment of the call.  In particular two consecutive reservations
never return the same piece. -/
theorem C3_reservation_exclusive (L : Lengths) (ts ts' : TorrentStateLocked) (h p : Nat)
    (hres : TorrentState.reserve_next_needed_piece L ts h = some (p, ts')) :
    ts'.chunks.needed.getD p false = false ∧
    ∀ ts2 h2 q ts3, ts2.chunks.needed.getD p false = false →
      TorrentState.reserve_next_needed_piece L ts2 h2 = some (q, ts3) → q ≠ p := by
  obtain ⟨l, bf, hlv, hch, hbf, hfm, hpT, rfl⟩ := reserve_some_shape L ts h p ts' hres
  obtain ⟨hlen, hneed, _, _⟩ := firstMatch_eq_some _ _ _ hfm
  constructor
  · show (ts.chunks.needed.set p false).getD p false = false
    exact getD_set_self _ _ _ _ hlen
  · intro ts2 h2 q ts3 hstill hres2 heqq
    obtain ⟨l2, bf2, _, _, _, hfm2, _, _⟩ := reserve_some_shape L ts2 h2 q ts3 hres2
    obtain ⟨_, hneed2, _, _⟩ := firstMatch_eq_some _ _ _ hfm2
    subst heqq
    rw [hstill] at hneed2
    cases hneed2

/-- Witness for C3 at the sample state: reserving piece 0 clears its needed
bit and blocks any further reservation of piece 0 while it stays clear. -/
theorem C3_reservation_exclusive_witness :
    ({ sampleState with
      peers := { sampleState.peers with
        inflight_pieces := setInsert 0 sampleState.peers.inflight_pieces }
      chunks := sampleState.chunks.reserve_needed_piece 0 } :
        TorrentStateLocked).chunks.needed.getD 0 false = false ∧
    ∀ ts2 h2 q ts3, ts2.chunks.needed.getD 0 false = false →
      TorrentState.reserve_next_needed_piece sampleLengths ts2 h2 = some (q, ts3) →
      q ≠ 0 :=
  C3_reservation_exclusive sampleLengths sampleState _ 0 0 (by decide)

/-- C4: drop_peer returns false and leaves the state unchanged when the
handle is not a key of states (given spec invariant 5, every tx key is a
states key, so the tx map loses nothing either); otherwise it returns
true, removes the handle from both states and tx, leaves every other
peer's entry alone, leaves the ChunkTracker alone for a Connecting peer,
and for a Live peer folds mark_chunk_request_cancelled over every
InflightRequest the peer held, setting the needed bit of each such
piece. -/
theorem C4_drop_peer_spec (ts : TorrentStateLocked) (h : Nat) :
    (alLookup h ts.peers.states = none → h ∉ ts.peers.tx →
      TorrentState.drop_peer ts h = (false, ts)) ∧
    (∀ s, alLookup h ts.peers.states = some s →
      (TorrentState.drop_peer ts h).1 = true ∧
      alLookup h (TorrentState.drop_peer ts h).2.peers.states = none ∧
      h ∉ (TorrentState.drop_peer ts h).2.peers.tx ∧
      (∀ h2, h2 ≠ h → alLookup h2 (TorrentState.drop_peer ts h).2.peers.states =
        alLookup h2 ts.peers.states) ∧
      (∀ a, s = PeerState.Connecting a →
        (TorrentState.drop_peer ts h).2.chunks = ts.chunks) ∧
      (∀ l, s = PeerState.Live l →
        (TorrentState.drop_peer ts h).2.chunks =
          TorrentState.cancelAll ts.chunks l.inflight_requests ∧
        ∀ r ∈ l.inflight_requests, r.piece < ts.chunks.needed.length →
          (TorrentState.drop_peer ts h).2.chunks.needed.getD r.piece false = true)) := by
  constructor
  · intro hlk htx
    unfold TorrentState.drop_peer PeerStates.drop_peer
    rw [hlk, alErase_of_lookup_none h ts.peers.states hlk, setRemove_of_not_mem h _ htx]
  · intro s hlk
    unfold TorrentState.drop_peer PeerStates.drop_peer
    rw [hlk]
    cases s with
    | Connecting a =>
      dsimp only
      refine ⟨rfl, alLookup_alErase_self h _, ?_, ?_, fun _ _ => rfl, ?_⟩
      · intro hmem
        exact ((mem_setRemove h h _).mp hmem).2 rfl
      · intro h2 hne
        exact alLookup_alErase_ne h h2 _ hne
      · intro l hcontra
        cases hcontra
    | Live l =>
      dsimp only
      refine ⟨rfl, alLookup_alErase_self h _, ?_, ?_, ?_, ?_⟩
      · intro hmem
        exact ((mem_setRemove h h _).mp hmem).2 rfl
      · intro h2 hne
        exact alLookup_alErase_ne h h2 _ hne
      · intro a hcontra
        cases hcontra
      · intro l2 hl2
        injection hl2 with hl2'
        subst hl2'
        refine ⟨rfl, ?_⟩
        intro r hr hlt
        exact cancelAll_needed_of_mem ts.chunks l.inflight_requests r hr hlt

/-- Witness for C4 at the two-piece sample state: dropping the live peer 0,
which holds the request for piece 0, removes it from states and tx and
sets the needed bit of piece 0 again. -/
theorem C4_drop_peer_spec_witness :
    (TorrentState.drop_peer sampleState2 0).1 = true ∧
    alLookup 0 (TorrentState.drop_peer sampleState2 0).2.peers.states = none ∧
    0 ∉ (TorrentState.drop_peer sampleState2 0).2.peers.tx ∧
    (∀ h2, h2 ≠ 0 → alLookup h2 (TorrentState.drop_peer sampleState2 0).2.peers.states =
      alLookup h2 sampleState2.peers.states) ∧
    (∀ a, PeerState.Live sampleLiveReq = PeerState.Connecting a →
      (TorrentState.drop_peer sampleState2 0).2.chunks = sampleState2.chunks) ∧
    (∀ l, PeerState.Live sampleLiveReq = PeerState.Live l →
      (TorrentState.drop_peer sampleState2 0).2.chunks =
        TorrentState.cancelAll sampleState2.chunks l.inflight_requests ∧
      ∀ r ∈ l.inflight_requests, r.piece < sampleState2.chunks.needed.length →
        (TorrentState.drop_peer sampleState2 0).2.chunks.needed.getD r.piece false = true) :=
  (C4_drop_peer_spec sampleState2 0).2 (PeerState.Live sampleLiveReq) rfl

/-- C6: set_peer_live replaces the peer's state by Live exactly when its
current state is Connecting, leaving the chunks, seen_peers, tx and
inflight_pieces untouched even then; when the current state is absent or
already Live the entire engine state is returned unchanged; and in every
case the entries of all other peers are untouched. -/
theorem C6_set_peer_live_spec (ts : TorrentStateLocked) (h pid : Nat) :
    (∀ a, alLookup h ts.peers.states = some (PeerState.Connecting a) →
      alLookup h (TorrentState.set_peer_live ts h pid).peers.states =
        some (PeerState.Live (LivePeerState.new pid)) ∧
      (TorrentState.set_peer_live ts h pid).chunks = ts.chunks ∧
      (TorrentState.set_peer_live ts h pid).peers.seen_peers = ts.peers.seen_peers ∧
      (TorrentState.set_peer_live ts h pid).peers.tx = ts.peers.tx ∧
      (TorrentState.set_peer_live ts h pid).peers.inflight_pieces =
        ts.peers.inflight_pieces) ∧
    ((∀ a, alLookup h ts.peers.states ≠ some (PeerState.Connecting a)) →
      TorrentState.set_peer_live ts h pid = ts) ∧
    (∀ h2, h2 ≠ h → alLookup h2 (TorrentState.set_peer_live ts h pid).peers.states =
      alLookup h2 ts.peers.states) := by
  refine ⟨?_, ?_, ?_⟩
  · intro a hlk
    unfold TorrentState.set_peer_live
    rw [hlk]
    exact ⟨alLookup_alInsert_self h _ _, rfl, rfl, rfl, rfl⟩
  · intro hne
    unfold TorrentState.set_peer_live
    cases hlk : alLookup h ts.peers.states with
    | none => rfl
    | some s =>
      cases s with
      | Connecting a => exact absurd hlk (hne a)
      | Live l => rfl
  · intro h2 hne
    unfold TorrentState.set_peer_live
    cases hlk : alLookup h ts.peers.states with
    | none => rfl
    | some s =>
      cases s with
      | Connecting a =>
        dsimp only
        exact alLookup_alInsert_ne h h2 _ _ hne
      | Live l => rfl

/-- Witness for C6 at a state with peer 0 Connecting: the transition
happens and nothing else moves. -/
theorem C6_set_peer_live_spec_witness :
    alLookup 0 (TorrentState.set_peer_live sampleConnState 0 7).peers.states =
      some (PeerState.Live (LivePeerState.new 7)) ∧
    (TorrentState.set_peer_live sampleConnState 0 7).chunks = sampleConnState.chunks ∧
    (TorrentState.set_peer_live sampleConnState 0 7).peers.seen_peers =
      sampleConnState.peers.seen_peers ∧
    (TorrentState.set_peer_live sampleConnState 0 7).peers.tx =
      sampleConnState.peers.tx ∧
    (TorrentState.set_peer_live sampleConnState 0 7).peers.inflight_pieces =
      sampleConnState.peers.inflight_pieces :=
  (C6_set_peer_live_spec sampleConnState 0 7).1 0 rfl

theorem seenInv_states_insert (ts ts' : TorrentStateLocked) (h : Nat) (v : PeerState)
    (inv : SeenInv ts)
    (hst : ts'.peers.states = alInsert h v ts.peers.states)
    (hseen : ts'.peers.seen_peers = ts.peers.seen_peers)
    (hkey : (alLookup h ts.peers.states).isSome = true) :
    SeenInv ts' := by
  intro h' hs
  rw [hst] at hs
  rw [hseen]
  by_cases hh : h' = h
  · subst hh
    exact inv h' hkey
  · rw [alLookup_alInsert_ne _ _ _ _ hh] at hs
    exact inv h' hs

theorem isSome_of_get_live_some (ps : PeerStates) (h : Nat) (l : LivePeerState)
    (hl : ps.get_live h = some l) : (alLookup h ps.states).isSome = true := by
  rw [alLookup_of_get_live ps h l hl]
  rfl

/-- Every operation preserves the spec invariant seen_peers ⊇ keys(states):
only add_if_not_seen creates a states key, and it marks the address seen. -/
theorem seenInv_step (L : Lengths) (ts : TorrentStateLocked) (op : Op)
    (inv : SeenInv ts) : SeenInv (step L ts op) := by
  cases op with
  | addPeer a =>
    simp only [step]
    cases hadd : ts.peers.add_if_not_seen a with
    | none => exact inv
    | some pr =>
      obtain ⟨h0, ps'⟩ := pr
      obtain ⟨rfl, hseen, hks, rfl⟩ := add_if_not_seen_some ts.peers a h0 ps' hadd
      intro h' hs
      show h' ∈ setInsert h0 ts.peers.seen_peers
      by_cases hh : h' = h0
      · exact (mem_setInsert _ _ _).mpr (Or.inl hh)
      · rw [show (alInsert h0 (PeerState.Connecting h0) ts.peers.states) =
            alInsert h0 (PeerState.Connecting h0) ts.peers.states from rfl] at hs
        rw [alLookup_alInsert_ne _ _ _ _ hh] at hs
        exact (mem_setInsert _ _ _).mpr (Or.inr (inv h' hs))
  | setLive h pid =>
    simp only [step]
    unfold TorrentState.set_peer_live
    cases hlk : alLookup h ts.peers.states with
    | none => exact inv
    | some s =>
      cases s with
      | Live l => exact inv
      | Connecting a =>
        refine seenInv_states_insert ts _ h (PeerState.Live (LivePeerState.new pid))
          inv rfl rfl ?_
        rw [hlk]
        rfl
  | setChoked h b =>
    simp only [step]
    unfold PeerStates.mark_i_am_choked
    cases hlv : ts.peers.get_live h with
    | none => exact inv
    | some l =>
      exact seenInv_states_insert ts _ h (PeerState.Live { l with i_am_choked := b })
        inv rfl rfl (isSome_of_get_live_some ts.peers h l hlv)
  | giveBitfield h bytes =>
    simp only [step]
    unfold PeerStates.update_bitfield_from_vec
    cases hlv : ts.peers.get_live h with
    | none => exact inv
    | some l =>
      exact seenInv_states_insert ts _ h
        (PeerState.Live { l with bitfield := some (bfFromVec bytes) })
        inv rfl rfl (isSome_of_get_live_some ts.peers h l hlv)
  | reserve h =>
    simp only [step]
    cases hres : TorrentState.reserve_next_needed_piece L ts h with
    | none => exact inv
    | some pr =>
      obtain ⟨n, ts2⟩ := pr
      obtain ⟨l, bf, hlv, hch, hbf, hfm, hnT, rfl⟩ := reserve_some_shape L ts h n ts2 hres
      exact inv
  | request h p c =>
    simp only [step]
    unfold issue_request
    cases hlv : ts.peers.get_live h with
    | none => exact inv
    | some l =>
      dsimp only
      by_cases hcond : p ∈ ts.peers.inflight_pieces ∧ c < L.chunks_per_piece p
      · rw [if_pos hcond]
        exact seenInv_states_insert ts _ h (PeerState.Live { l with
          inflight_requests :=
            if (⟨p, c⟩ : InflightRequest) ∈ l.inflight_requests then l.inflight_requests
            else ⟨p, c⟩ :: l.inflight_requests })
          inv rfl rfl (isSome_of_get_live_some ts.peers h l hlv)
      · rw [if_neg hcond]
        exact inv
  | deliver h p c v =>
    simp only [step]
    unfold deliver_chunk
    cases hlv : ts.peers.get_live h with
    | none => exact inv
    | some l =>
      dsimp only
      by_cases hmem : (⟨p, c⟩ : InflightRequest) ∈ l.inflight_requests
      · rw [if_pos hmem]
        have hinner : SeenInv { ts with peers := { ts.peers with
            states := alInsert h (PeerState.Live { l with
              inflight_requests := l.inflight_requests.filter (fun r => r != ⟨p, c⟩) })
              ts.peers.states } } :=
          seenInv_states_insert ts _ h (PeerState.Live { l with
            inflight_requests := l.inflight_requests.filter (fun r => r != ⟨p, c⟩) })
            inv rfl rfl (isSome_of_get_live_some ts.peers h l hlv)
        cases hmc : ts.chunks.mark_chunk_downloaded L p c with
        | mk outcome ct' =>
          cases outcome with
          | AlreadyHave => exact hinner
          | NotLastChunk => exact hinner
          | PieceComplete =>
            have hclear : ∀ (seen2 : List Nat), seen2 = ts.peers.seen_peers →
                ∀ h', (alLookup h' (clearRequestsForPiece p
                  (alInsert h (PeerState.Live { l with
                    inflight_requests :=
                      l.inflight_requests.filter (fun r => r != ⟨p, c⟩) })
                    ts.peers.states))).isSome = true → h' ∈ seen2 := by
              rintro seen2 rfl h' hs
              rw [alLookup_clearRequests] at hs
              rw [Option.isSome_map'] at hs
              exact hinner h' hs
            cases v with
            | true => exact hclear ts.peers.seen_peers rfl
            | false => exact hclear ts.peers.seen_peers rfl
      · rw [if_neg hmem]
        exact inv
  | dropPeer h =>
    simp only [step]
    unfold TorrentState.drop_peer PeerStates.drop_peer
    have herase : ∀ h', (alLookup h' (alErase h ts.peers.states)).isSome = true →
        h' ∈ ts.peers.seen_peers := by
      intro h' hs
      by_cases hh : h' = h
      · rw [hh, alLookup_alErase_self] at hs
        cases hs
      · rw [alLookup_alErase_ne _ _ _ hh] at hs
        exact inv h' hs
    cases hlk : alLookup h ts.peers.states with
    | none => exact fun h' hs => herase h' hs
    | some s =>
      cases s with
      | Connecting a => exact fun h' hs => herase h' hs
      | Live l => exact fun h' hs => herase h' hs

/-- No operation ever removes an address from seen_peers. -/
theorem seen_step_mono (L : Lengths) (ts : TorrentStateLocked) (op : Op) :
    ∀ x ∈ ts.peers.seen_peers, x ∈ (step L ts op).peers.seen_peers := by
  intro x hx
  cases op with
  | addPeer a =>
    simp only [step]
    cases hadd : ts.peers.add_if_not_seen a with
    | none => exact hx
    | some pr =>
      obtain ⟨h0, ps'⟩ := pr
      obtain ⟨rfl, hseen, hks, rfl⟩ := add_if_not_seen_some ts.peers a h0 ps' hadd
      exact (mem_setInsert _ _ _).mpr (Or.inr hx)
  | setLive h pid =>
    simp only [step]
    unfold TorrentState.set_peer_live
    cases hlk : alLookup h ts.peers.states with
    | none => exact hx
    | some s => cases s <;> exact hx
  | setChoked h b =>
    simp only [step]
    unfold PeerStates.mark_i_am_choked
    cases hlv : ts.peers.get_live h with
    | none => exact hx
    | some l => exact hx
  | giveBitfield h bytes =>
    simp only [step]
    unfold PeerStates.update_bitfield_from_vec
    cases hlv : ts.peers.get_live h with
    | none => exact hx
    | some l => exact hx
  | reserve h =>
    simp only [step]
    cases hres : TorrentState.reserve_next_needed_piece L ts h with
    | none => exact hx
    | some pr =>
      obtain ⟨n, ts2⟩ := pr
      obtain ⟨l, bf, hlv, hch, hbf, hfm, hnT, rfl⟩ := reserve_some_shape L ts h n ts2 hres
      exact hx
  | request h p c =>
    simp only [step]
    unfold issue_request
    cases hlv : ts.peers.get_live h with
    | none => exact hx
    | some l =>
      dsimp only
      by_cases hcond : p ∈ ts.peers.inflight_pieces ∧ c < L.chunks_per_piece p
      · rw [if_pos hcond]
        exact hx
      · rw [if_neg hcond]
        exact hx
  | deliver h p c v =>
    simp only [step]
    unfold deliver_chunk
    cases hlv : ts.peers.get_live h with
    | none => exact hx
    | some l =>
      dsimp only
      by_cases hmem : (⟨p, c⟩ : InflightRequest) ∈ l.inflight_requests
      · rw [if_pos hmem]
        cases hmc : ts.chunks.mark_chunk_downloaded L p c with
        | mk outcome ct' =>
          cases outcome with
          | AlreadyHave => exact hx
          | NotLastChunk => exact hx
          | PieceComplete => cases v <;> exact hx
      · rw [if_neg hmem]
        exact hx
  | dropPeer h =>
    simp only [step]
    unfold TorrentState.drop_peer PeerStates.drop_peer
    cases hlk : alLookup h ts.peers.states with
    | none => exact hx
    | some s => cases s <;> exact hx

/-- C5: seen_peers remains a superset of the keys of states across every
engine operation and never loses an address (so an address once admitted
stays seen even after its peer is dropped); add_if_not_seen rejects any
address already in seen_peers; and under the superset invariant a
never-seen address is admitted with handle equal to the address, a
Connecting entry in states, a recorded tx channel and a seen mark. -/
theorem C5_seen_peers_superset (L : Lengths) (ts : TorrentStateLocked) (op : Op)
    (addr : Nat) :
    (SeenInv ts → SeenInv (step L ts op)) ∧
    (∀ x, x ∈ ts.peers.seen_peers → x ∈ (step L ts op).peers.seen_peers) ∧
    (addr ∈ ts.peers.seen_peers → ts.peers.add_if_not_seen addr = none) ∧
    (SeenInv ts → addr ∉ ts.peers.seen_peers →
      ∃ ps', ts.peers.add_if_not_seen addr = some (addr, ps') ∧
        alLookup addr ps'.states = some (PeerState.Connecting addr) ∧
        addr ∈ ps'.tx ∧ addr ∈ ps'.seen_peers ∧
        ps'.inflight_pieces = ts.peers.inflight_pieces) := by
  refine ⟨seenInv_step L ts op, seen_step_mono L ts op, ?_, ?_⟩
  · intro hseen
    unfold PeerStates.add_if_not_seen
    rw [if_pos hseen]
  · intro inv hseen
    have hnone : alLookup addr ts.peers.states = none := by
      cases hv : alLookup addr ts.peers.states with
      | none => rfl
      | some s =>
        exfalso
        apply hseen
        apply inv addr
        rw [hv]
        rfl
    unfold PeerStates.add_if_not_seen PeerStates.add
    rw [if_neg hseen, hnone]
    refine ⟨_, rfl, ?_, ?_, ?_, rfl⟩
    · exact alLookup_alInsert_self addr _ _
    · exact (mem_setInsert _ _ _).mpr (Or.inl rfl)
    · exact (mem_setInsert _ _ _).mpr (Or.inl rfl)

/-- Witness for C5 at the two-piece sample state with a drop operation and
a fresh address. -/
theorem C5_seen_peers_superset_witness :
    (SeenInv (step sampleLengths2 sampleState2 (Op.dropPeer 0))) ∧
    (0 ∈ (step sampleLengths2 sampleState2 (Op.dropPeer 0)).peers.seen_peers) ∧
    (sampleState2.peers.add_if_not_seen 0 = none) ∧
    (∃ ps', sampleState2.peers.add_if_not_seen 1 = some (1, ps') ∧
      alLookup 1 ps'.states = some (PeerState.Connecting 1) ∧
      1 ∈ ps'.tx ∧ 1 ∈ ps'.seen_peers ∧
      ps'.inflight_pieces = sampleState2.peers.inflight_pieces) := by
  have hSeen : SeenInv sampleState2 := by
    intro h hs
    by_cases hh : h = 0
    · rw [hh]
      exact List.mem_singleton.mpr rfl
    · exfalso
      have hl : alLookup h sampleState2.peers.states = none := by
        show (if h = 0 then some (PeerState.Live sampleLiveReq) else alLookup h []) = none
        rw [if_neg hh]
        rfl
      rw [hl] at hs
      cases hs
  refine ⟨?_, ?_, ?_, ?_⟩
  · exact (C5_seen_peers_superset sampleLengths2 sampleState2 (Op.dropPeer 0) 0).1 hSeen
  · exact (C5_seen_peers_superset sampleLengths2 sampleState2 (Op.dropPeer 0) 0).2.1
      0 (by decide)
  · exact (C5_seen_peers_superset sampleLengths2 sampleState2 (Op.dropPeer 0) 0).2.2.1
      (by decide)
  · exact (C5_seen_peers_superset sampleLengths2 sampleState2 (Op.dropPeer 0) 1).2.2.2
      hSeen (by decide)

/-- C7: try_steal_piece never mutates the engine state (the source takes
the lock read-only, and the embedding is a pure function of the state);
it returns None when the peer is not Live, and for a live peer it returns
None exactly when every piece of inflight_pieces already has an
InflightRequest of this peer; whatever random draw k is used, a returned
piece is a member of inflight_pieces for which this peer holds no
InflightRequest. -/
theorem C7_try_steal_piece_spec (ts : TorrentStateLocked) (h k : Nat) :
    (ts.peers.get_live h = none → TorrentState.try_steal_piece ts h k = none) ∧
    (∀ pl, ts.peers.get_live h = some pl →
      (TorrentState.try_steal_piece ts h k = none ↔
        ∀ p ∈ ts.peers.inflight_pieces, ∃ r ∈ pl.inflight_requests, r.piece = p)) ∧
    (∀ p, TorrentState.try_steal_piece ts h k = some p →
      p ∈ ts.peers.inflight_pieces ∧
      ∀ pl, ts.peers.get_live h = some pl →
        ¬∃ r ∈ pl.inflight_requests, r.piece = p) := by
  refine ⟨?_, ?_, ?_⟩
  · intro hnone
    unfold TorrentState.try_steal_piece
    rw [hnone]
  · intro pl hlv
    unfold TorrentState.try_steal_piece
    rw [hlv]
    dsimp only
    by_cases hne : ts.peers.inflight_pieces.filter
        (fun p => !(pl.inflight_requests.any (fun req => req.piece == p))) = []
    · rw [dif_pos hne]
      constructor
      · intro _ p hp
        have hfe := List.filter_eq_nil_iff.mp hne p hp
        have hany : pl.inflight_requests.any (fun req => req.piece == p) = true := by
          cases hv : pl.inflight_requests.any (fun req => req.piece == p) with
          | true => rfl
          | false =>
            exfalso
            apply hfe
            rw [hv]
            rfl
        obtain ⟨r, hrmem, hrp⟩ := List.any_eq_true.mp hany
        exact ⟨r, hrmem, by simpa using hrp⟩
      · intro _
        rfl
    · rw [dif_neg hne]
      constructor
      · intro hcontra
        cases hcontra
      · intro hall
        exfalso
        apply hne
        apply List.filter_eq_nil_iff.mpr
        intro a ha
        obtain ⟨r, hr, hrp⟩ := hall a ha
        have hany : pl.inflight_requests.any (fun req => req.piece == a) = true :=
          List.any_eq_true.mpr ⟨r, hr, by simpa using hrp⟩
        rw [hany]
        simp
  · intro p hsome
    unfold TorrentState.try_steal_piece at hsome
    cases hlv : ts.peers.get_live h with
    | none =>
      rw [hlv] at hsome
      cases hsome
    | some pl =>
      rw [hlv] at hsome
      dsimp only at hsome
      by_cases hne : ts.peers.inflight_pieces.filter
          (fun q => !(pl.inflight_requests.any (fun req => req.piece == q))) = []
      · rw [dif_pos hne] at hsome
        cases hsome
      · rw [dif_neg hne] at hsome
        injection hsome with hp
        have hmemc : p ∈ ts.peers.inflight_pieces.filter
            (fun q => !(pl.inflight_requests.any (fun req => req.piece == q))) := by
          rw [← hp]
          exact List.get_mem _ _ _
        have hdec := List.mem_filter.mp hmemc
        refine ⟨hdec.1, ?_⟩
        intro pl2 hlv2
        injection hlv2 with he'
        subst he'
        rintro ⟨r, hr, hrp⟩
        have hany : pl.inflight_requests.any (fun req => req.piece == p) = true :=
          List.any_eq_true.mpr ⟨r, hr, by simpa using hrp⟩
        have h2 := hdec.2
        rw [hany] at h2
        cases h2

/-- Witness for C7 at the two-piece sample state, where piece 0 is in
flight and already requested by peer 0: the steal returns None, matching
the characterization. -/
theorem C7_try_steal_piece_spec_witness :
    TorrentState.try_steal_piece sampleState2 0 3 = none ↔
      ∀ p ∈ sampleState2.peers.inflight_pieces,
        ∃ r ∈ sampleLiveReq.inflight_requests, r.piece = p :=
  ((C7_try_steal_piece_spec sampleState2 0 3).2.1 sampleLiveReq rfl)

/-- C8 counterexample: the claim says a malformed Bitfield message "causes
the peer to be dropped and causes no other state change".  At the
two-piece sample state the live peer 0 holds the InflightRequest for
piece 0; handling an empty (wrong-length) Bitfield message drops the
peer, and per the drop semantics its request is cancelled back into
needed: the ChunkTracker changes, refuting "no other state change". -/
theorem C8_counterexample :
    alLookup 0 (handle_bitfield sampleLengths2 sampleState2 0 []).peers.states = none ∧
    (handle_bitfield sampleLengths2 sampleState2 0 []).chunks.needed ≠
      sampleState2.chunks.needed := by
  decide

/-- C8 (amended): for every live peer, a Bitfield message whose byte length
is not the mandated one or with a trailing bit beyond total_pieces set
causes the peer to be dropped via TorrentState::drop_peer — removing it
from states and tx and cancelling each InflightRequest it held back into
the ChunkTracker — and causes no other state change: other peers' entries,
seen_peers and inflight_pieces are untouched, and in particular the
peer's stored bitfield is never replaced by a bitfield of the wrong
length (the peer no longer exists). -/
theorem C8_bitfield_malformed_reject (L : Lengths) (ts : TorrentStateLocked) (h : Nat)
    (bytes : List Nat) (l : LivePeerState)
    (hlv : ts.peers.get_live h = some l)
    (hbad : ¬(bytes.length = bitfieldByteLen L.total_pieces ∧
      (((bfFromVec bytes).drop L.total_pieces).all (fun b => !b)) = true)) :
    handle_bitfield L ts h bytes = (TorrentState.drop_peer ts h).2 ∧
    alLookup h (handle_bitfield L ts h bytes).peers.states = none ∧
    h ∉ (handle_bitfield L ts h bytes).peers.tx ∧
    (∀ h2, h2 ≠ h → alLookup h2 (handle_bitfield L ts h bytes).peers.states =
      alLookup h2 ts.peers.states) ∧
    (handle_bitfield L ts h bytes).peers.seen_peers = ts.peers.seen_peers ∧
    (handle_bitfield L ts h bytes).peers.inflight_pieces = ts.peers.inflight_pieces ∧
    (handle_bitfield L ts h bytes).chunks =
      TorrentState.cancelAll ts.chunks l.inflight_requests := by
  have hlk := alLookup_of_get_live ts.peers h l hlv
  have heq : handle_bitfield L ts h bytes = (TorrentState.drop_peer ts h).2 := by
    unfold handle_bitfield
    rw [if_neg hbad]
  have hdrop : (TorrentState.drop_peer ts h).2 =
      { peers := { ts.peers with
          states := alErase h ts.peers.states
          tx := setRemove h ts.peers.tx }
        chunks := TorrentState.cancelAll ts.chunks l.inflight_requests } := by
    unfold TorrentState.drop_peer PeerStates.drop_peer
    rw [hlk]
  rw [heq, hdrop]
  refine ⟨rfl, ?_, ?_, ?_, rfl, rfl, rfl⟩
  · exact alLookup_alErase_self h _
  · intro hmem
    exact ((mem_setRemove h h _).mp hmem).2 rfl
  · intro h2 hne
    exact alLookup_alErase_ne h h2 _ hne

/-- Witness for C8 at the two-piece sample state with an empty byte
vector: the peer is dropped, its entry and tx vanish, everything else is
framed, and the chunks are exactly the cancellation fold. -/
theorem C8_bitfield_malformed_reject_witness :
    handle_bitfield sampleLengths2 sampleState2 0 [] =
      (TorrentState.drop_peer sampleState2 0).2 ∧
    alLookup 0 (handle_bitfield sampleLengths2 sampleState2 0 []).peers.states = none ∧
    0 ∉ (handle_bitfield sampleLengths2 sampleState2 0 []).peers.tx ∧
    (∀ h2, h2 ≠ 0 →
      alLookup h2 (handle_bitfield sampleLengths2 sampleState2 0 []).peers.states =
        alLookup h2 sampleState2.peers.states) ∧
    (handle_bitfield sampleLengths2 sampleState2 0 []).peers.seen_peers =
      sampleState2.peers.seen_peers ∧
    (handle_bitfield sampleLengths2 sampleState2 0 []).peers.inflight_pieces =
      sampleState2.peers.inflight_pieces ∧
    (handle_bitfield sampleLengths2 sampleState2 0 []).chunks =
      TorrentState.cancelAll sampleState2.chunks sampleLiveReq.inflight_requests :=
  C8_bitfield_malformed_reject sampleLengths2 sampleState2 0 [] sampleLiveReq rfl
    (by decide)

theorem collectMatching_ok (m : String → Bool) :
    ∀ (fs : List TorrentFileEntry) (i : Nat) (lr : List Nat),
      collectMatching m fs i = Except.ok lr → lr = specMatchingIndices m fs i := by
  intro fs
  induction fs with
  | nil =>
    intro i lr h
    injection h with h'
    rw [← h']
    rfl
  | cons f rest ih =>
    intro i lr h
    rw [collectMatching] at h
    cases hp : f.path with
    | none =>
      rw [hp] at h
      cases h
    | some s =>
      rw [hp] at h
      cases hc : collectMatching m rest (i + 1) with
      | error e =>
        rw [hc] at h
        cases h
      | ok rest' =>
        rw [hc] at h
        injection h with h'
        rw [← h', ih (i + 1) rest' hc]
        rw [specMatchingIndices]
        rw [hp]

theorem specMatchingIndices_nil (m : String → Bool) :
    ∀ (fs : List TorrentFileEntry) (i : Nat),
      (∀ f ∈ fs, ∀ s, f.path = some s → m s = false) →
      specMatchingIndices m fs i = [] := by
  intro fs
  induction fs with
  | nil => intro i _; rfl
  | cons f rest ih =>
    intro i hno
    rw [specMatchingIndices]
    cases hp : f.path with
    | none =>
      dsimp only
      rw [if_neg (by simp : ¬(false = true))]
      exact ih (i + 1) (fun f2 hf2 => hno f2 (List.mem_cons_of_mem f hf2))
    | some s =>
      dsimp only
      have hm := hno f (List.mem_cons_self f rest) s hp
      rw [hm, if_neg (by simp : ¬(false = true))]
      exact ih (i + 1) (fun f2 hf2 => hno f2 (List.mem_cons_of_mem f hf2))

/-- C9: with the filename-regex option, main_info fails before
builder.start_manager() runs when the regex is syntactically invalid or
no filename matches it (the Except result is an error and carries no
startManager event); and when compute_only_files succeeds, its value is
exactly the list of indices of files whose path matches the regex,
which is non-empty, after which the manager is started. -/
theorem C9_compute_only_files_spec (compile : String → Option (String → Bool))
    (files : List TorrentFileEntry) (re : String) :
    (compile re = none →
      main_info_model compile files false (some re) =
        Except.error "filename regex is incorrect") ∧
    (∀ m, compile re = some m → (∀ f ∈ files, ∀ s, f.path = some s → m s = false) →
      ∃ e, main_info_model compile files false (some re) = Except.error e) ∧
    (∀ l, compute_only_files compile files re = Except.ok l →
      ∃ m, compile re = some m ∧ l = specMatchingIndices m files 0 ∧ l ≠ []) ∧
    (∀ l, compute_only_files compile files re = Except.ok l →
      main_info_model compile files false (some re) =
        Except.ok [MainEvent.startManager]) := by
  refine ⟨?_, ?_, ?_, ?_⟩
  · intro hcmp
    unfold main_info_model
    rw [if_neg (by simp)]
    dsimp only
    unfold compute_only_files
    rw [hcmp]
  · intro m hcmp hno
    unfold main_info_model
    rw [if_neg (by simp)]
    dsimp only
    unfold compute_only_files
    rw [hcmp]
    dsimp only
    cases hc : collectMatching m files 0 with
    | error e =>
      exact ⟨e, rfl⟩
    | ok lr =>
      have hnil : lr = [] := by
        rw [collectMatching_ok m files 0 lr hc]
        exact specMatchingIndices_nil m files 0 hno
      subst hnil
      exact ⟨"none of the filenames match the given regex", rfl⟩
  · intro l hok
    unfold compute_only_files at hok
    cases hcmp : compile re with
    | none =>
      rw [hcmp] at hok
      cases hok
    | some m =>
      rw [hcmp] at hok
      dsimp only at hok
      cases hc : collectMatching m files 0 with
      | error e =>
        rw [hc] at hok
        cases hok
      | ok lr =>
        rw [hc] at hok
        dsimp only at hok
        cases hemp : lr.isEmpty with
        | true =>
          rw [hemp] at hok
          simp only [if_true] at hok
          cases hok
        | false =>
          rw [hemp] at hok
          simp only [Bool.false_eq_true, if_false] at hok
          injection hok with h'
          refine ⟨m, rfl, ?_, ?_⟩
          · rw [← h']
            exact collectMatching_ok m files 0 lr hc
          · rw [← h']
            intro hcontra
            rw [hcontra] at hemp
            cases hemp
  · intro l hok
    unfold main_info_model
    rw [if_neg (by simp)]
    dsimp only
    rw [hok]

/-- Witness for C9 with a two-file torrent and a regex engine that matches
by string equality: the pattern b selects exactly file 1. -/
theorem C9_compute_only_files_spec_witness :
    ∃ m, (fun r => if r = "bad" then none else
        some (fun s => s == r)) "b" = some m ∧
      [1] = specMatchingIndices m
        [⟨some "a", 5⟩, ⟨some "b", 6⟩] 0 ∧ ([1] : List Nat) ≠ [] :=
  (C9_compute_only_files_spec
    (fun r => if r = "bad" then none else some (fun s => s == r))
    [⟨some "a", 5⟩, ⟨some "b", 6⟩] "b").2.2.1 [1] rfl

/-- C10: get_left_to_download is the u64 subtraction
needed - downloaded_and_checked with no underflow guard: whenever
downloaded_and_checked is at most needed it computes exactly the
difference, and the subtraction is well defined (does not underflow)
precisely under that precondition. -/
theorem C10_get_left_to_download_spec (needed : Nat) (s : AtomicStats) :
    (s.downloaded_and_checked ≤ needed →
      TorrentState.get_left_to_download needed s =
        some (needed - s.downloaded_and_checked)) ∧
    ((TorrentState.get_left_to_download needed s).isSome = true ↔
      s.downloaded_and_checked ≤ needed) := by
  unfold TorrentState.get_left_to_download
  constructor
  · intro hle
    rw [if_pos hle]
  · by_cases hle : s.downloaded_and_checked ≤ needed
    · rw [if_pos hle]
      simp [hle]
    · rw [if_neg hle]
      simp [hle]

/-- Witness for C10 at needed = 5 and downloaded_and_checked = 2. -/
theorem C10_get_left_to_download_spec_witness :
    ((⟨0, 2, 0, 0⟩ : AtomicStats).downloaded_and_checked ≤ 5 →
      TorrentState.get_left_to_download 5 ⟨0, 2, 0, 0⟩ =
        some (5 - (⟨0, 2, 0, 0⟩ : AtomicStats).downloaded_and_checked)) ∧
    ((TorrentState.get_left_to_download 5 ⟨0, 2, 0, 0⟩).isSome = true ↔
      (⟨0, 2, 0, 0⟩ : AtomicStats).downloaded_and_checked ≤ 5) :=
  C10_get_left_to_download_spec 5 ⟨0, 2, 0, 0⟩

end Rqbit
